import Mathlib

/-!
Verification of the `science` export/build pipeline (`science/exe.py`).

The definitions below are a shallow embedding of the code of `exe.py`:
paths are lists of components, the filesystem is an explicit record of
directories, regular files (with byte contents) and symlinks, and every
fallible step returns `Except`.  External collaborators that are not part
of the repository sources (the fetcher, the manifest serializer, the
`a_scie` helpers, `platform` naming and the digest primitive of
`science.model`) are threaded through an explicit environment record or
modelled from the specification where noted.
-/

namespace Science

/-- A filesystem path, as a list of components (`pathlib` splits on `/`). -/
abbrev Path := List String

/-- A byte string; single bytes are `Nat`s (values below 256 in practice). -/
abbrev Bytes := List Nat

/-- A target platform, identified by its enum value string (`Platform.value`). -/
structure Platform where
  value : String
deriving DecidableEq, Repr

/-- A parsed packer (scie-jump) version, compared lexicographically as
`packaging.version` does for plain release triples. -/
structure Version where
  major : Nat
  minor : Nat
  patch : Nat
deriving DecidableEq, Repr

/-- Strict order on versions (lexicographic), mirroring `packaging.version`
comparison of plain `X.Y.Z` releases. -/
def versionLt (a b : Version) : Bool :=
  a.major < b.major ||
    (a.major == b.major &&
      (a.minor < b.minor || (a.minor == b.minor && a.patch < b.patch)))

/-- `version.parse("0.9.0")`, the fixed floor checked by `build`. -/
def floorVersion : Version := ⟨0, 9, 0⟩

/-- The scie-jump specification of an application (`application.scie_jump`):
holds the optionally declared minimum packer version. -/
structure ScieJump where
  version : Option Version
deriving DecidableEq, Repr

/-- The source of a declared file: either unset (must be locally supplied) or
a fetch from a URL, eager or lazy (`science.model.Fetch`). -/
inductive FileSource
  | unset
  | fetch (url : String) (lazy : Bool)
deriving DecidableEq, Repr

/-- A declared file (`science.model.File`): id, display name, executable
flag, optional declared content digest and its source. -/
structure File where
  id : String
  name : String
  isExecutable : Bool
  digest : Option Nat
  source : FileSource
deriving DecidableEq, Repr

/-- A platform-resolved interpreter distribution; `exe.py` only uses its
`.file`. -/
structure Distribution where
  file : File
deriving DecidableEq, Repr

/-- An interpreter provider: yields zero or one `Distribution` per platform. -/
structure Interpreter where
  distribution : Platform → Option Distribution

/-- A command / binding descriptor attached to the application. -/
structure Command where
  name : String
  exe : String
  args : List String
deriving DecidableEq, Repr

/-- The ptex (lazy fetch helper) specification of an application
(`application.ptex`): optional version and optional binding argument. -/
structure PtexSpec where
  version : Option String
  argv1 : Option String
deriving DecidableEq, Repr

/-- The parsed application description (`science.model.Application`). -/
structure Application where
  name : String
  description : String
  platforms : List Platform
  interpreters : List Interpreter
  files : List File
  commands : List Command
  bindings : List Command
  scieJump : Option ScieJump
  ptex : Option PtexSpec
  loadDotenv : Bool
  interpreterGroups : List String

/-- The manifest record handed to `lift.emit_manifest`, one per platform. -/
structure Manifest where
  name : String
  description : String
  loadDotenv : Bool
  scieJump : Option ScieJump
  platform : Platform
  distributions : List Distribution
  interpreterGroups : List String
  files : List File
  commands : List Command
  bindings : List Command
  fetchUrls : List (String × String)
  buildInfo : List (String × String)

/-- Errors raised by the export/build pipeline of `exe.py`. -/
inductive ExportError
  | invalidFileMapping (value : String)
  | missingFile (id : String) (path : Path)
  | digestMismatch (name : String) (expected actual : Nat)
  | contentUnreadable (path : Path)
  | dirExists (path : Path)
  | linkExists (path : Path)
  | fetchFailed (url : String)
deriving DecidableEq, Repr

/-- A user-supplied `--file <id>=<path>` override mapping. -/
structure FileMapping where
  id : String
  path : String
deriving DecidableEq, Repr

/-- Splits a character list at the first occurrence of `sep`, returning the
parts before and after it; `none` when `sep` does not occur.  This is
`str.split(sep, 1)` restricted to one character, with `none` standing for
the single-element result. -/
def splitFirst (sep : Char) : List Char → Option (List Char × List Char)
  | [] => none
  | c :: cs =>
    if c = sep then some ([], cs)
    else
      match splitFirst sep cs with
      | none => none
      | some (a, b) => some (c :: a, b)

/-- `FileMapping.parse`: `value.split("=", 1)` must yield exactly two
components, the id before the first `=` and the path after it. -/
def FileMapping.parse (value : String) : Except ExportError FileMapping :=
  match splitFirst '=' value.data with
  | none => .error (.invalidFileMapping value)
  | some (idChars, pathChars) => .ok ⟨String.mk idChars, String.mk pathChars⟩

/-- Python-dict insertion into an association list: replaces the value of an
existing key in place, otherwise appends the new entry. -/
def insertAssoc {α : Type} : List (String × α) → String → α → List (String × α)
  | [], k, v => [(k, v)]
  | e :: es, k, v => if e.1 = k then (k, v) :: es else e :: insertAssoc es k v

/-- Python-dict lookup in an association list. -/
def lookupAssoc {α : Type} : List (String × α) → String → Option α
  | [], _ => none
  | e :: es, k => if e.1 = k then some e.2 else lookupAssoc es k

/-- The filesystem state: existing directories, regular files with their
byte contents, and symlinks `(link-path, target)`. -/
structure FS where
  dirs : List Path
  fileContents : List (Path × Bytes)
  links : List (Path × Path)
deriving DecidableEq, Repr

/-- A path exists when it is a directory, a regular file or a symlink. -/
def pathExists (fs : FS) (p : Path) : Prop :=
  p ∈ fs.dirs ∨ (∃ e ∈ fs.fileContents, e.1 = p) ∨ (∃ e ∈ fs.links, e.1 = p)

instance (fs : FS) (p : Path) : Decidable (pathExists fs p) := by
  unfold pathExists; exact inferInstance

/-- `root` is a leading portion of `p` (used to delimit a directory tree). -/
def pathUnder (root p : Path) : Bool :=
  root == p.take root.length

/-- All the directories created by `mkdir(parents=True)` for path `p`:
every nonempty leading portion of `p`, `p` itself included. -/
def ancestorsOf (p : Path) : List Path :=
  (List.range p.length).map (fun i => p.take (i + 1))

/-- `shutil.rmtree(root, ignore_errors=True)`: removes every entry at or
below `root`. -/
def rmtree (fs : FS) (root : Path) : FS :=
  ⟨fs.dirs.filter (fun d => !pathUnder root d),
   fs.fileContents.filter (fun e => !pathUnder root e.1),
   fs.links.filter (fun e => !pathUnder root e.1)⟩

/-- `p.mkdir(parents=True, exist_ok=False)`: fails when `p` already exists,
otherwise creates `p` and its missing parents. -/
def mkdirFresh (fs : FS) (p : Path) : Except ExportError FS :=
  if pathExists fs p then .error (.dirExists p)
  else .ok ⟨ancestorsOf p ++ fs.dirs, fs.fileContents, fs.links⟩

/-- `p.mkdir(parents=True, exist_ok=True)`: creates `p` and its parents,
never failing. -/
def mkdirAll (fs : FS) (p : Path) : FS :=
  ⟨ancestorsOf p ++ fs.dirs, fs.fileContents, fs.links⟩

/-- Writes a regular file at `p` with contents `c` (newest entry wins). -/
def addContent (fs : FS) (p : Path) (c : Bytes) : FS :=
  ⟨fs.dirs, (p, c) :: fs.fileContents, fs.links⟩

/-- Reads the bytes of the regular file at `p`, if one exists. -/
def readBytes (fs : FS) (p : Path) : Option Bytes :=
  (fs.fileContents.find? (fun e => e.1 == p)).map (·.2)

/-- `target.symlink_to(src)`: fails when `target` already exists. -/
def symlinkTo (fs : FS) (target src : Path) : Except ExportError FS :=
  if pathExists fs target then .error (.linkExists target)
  else .ok ⟨fs.dirs, fs.fileContents, (target, src) :: fs.links⟩

/-- Lines 155–158 of `exe.py`: `target.parent.mkdir(parents=True,
exist_ok=True)` followed by `if not target.exists():
target.symlink_to(file_path)`. -/
def placeLink (fs : FS) (target src : Path) : Except ExportError FS :=
  let fs1 := mkdirAll fs target.dropLast
  if pathExists fs1 target then .ok fs1 else symlinkTo fs1 target src

/-- Splits a file name into path components at `/`, accumulating the
current component in reverse. -/
def namePartsAux : List Char → List Char → List String
  | [], acc => [String.mk acc.reverse]
  | c :: cs, acc =>
    if c = '/' then String.mk acc.reverse :: namePartsAux cs []
    else namePartsAux cs (c :: acc)

/-- `chroot / file.name`: `pathlib` splits a name containing `/` into
components. -/
def nameParts (n : String) : Path := namePartsAux n.data []

/-- Whether a file's source is a lazy fetch. -/
def isLazyFile (f : File) : Bool :=
  match f.source with
  | .fetch _ true => true
  | _ => false

/-- The environment of external collaborators consumed by `exe.py`:
current working directory, `Path.resolve`, the digest primitive, the
fetcher, the `a_scie` helpers, the manifest serializer and platform
binary naming. -/
structure Env where
  cwd : Path
  resolve : String → Path
  hashFn : Bytes → Nat
  fetch : String → Option Nat → Bool → Option (Path × Bytes)
  ptexFile : Platform → File
  ptexContent : Platform → Bytes
  serializeManifest : Manifest → Bytes
  scienceVersion : String
  linesep : String
  current : Platform
  binaryName : Platform → String → String
  qualifiedBinaryName : Platform → String → String
  runPacker : Path → Path → Path → Option Bytes
  jump : Option ScieJump → Platform → Path
  customJump : Path → Path

/-- Modelled from the spec: `File.maybe_check_digest` of `science.model`
(not under `src/`): after a local resolution, when the file declares a
digest, recompute the digest of the resolved bytes and fail with a
digest-mismatch error when they differ. -/
def maybeCheckDigest (env : Env) (fs : FS) (file : File) (p : Path) :
    Except ExportError Unit :=
  match file.digest with
  | none => .ok ()
  | some d =>
    match readBytes fs p with
    | none => .error (.contentUnreadable p)
    | some c =>
      if env.hashFn c = d then .ok ()
      else .error (.digestMismatch file.name d (env.hashFn c))

/-- The per-file export state: the filesystem and the fetch-URL table. -/
structure ExpSt where
  fs : FS
  fetchUrls : List (String × String)
deriving Repr

/-- Lines 153–158 of `exe.py`: the tail of the per-file loop once a local
path was produced — digest check, parent creation and guarded link. -/
def linkLocal (env : Env) (chroot : Path) (st : ExpSt) (file : File)
    (p : Path) : Except ExportError ExpSt :=
  match maybeCheckDigest env st.fs file p with
  | .error e => .error e
  | .ok _ =>
    match placeLink st.fs (chroot ++ nameParts file.name) p with
    | .ok fs' => .ok ⟨fs', st.fetchUrls⟩
    | .error e => .error e

/-- The default local path of a file with an unset source:
`file_paths_by_id.get(file.id) or Path.cwd() / file.name`. -/
def resolveUnsetPath (env : Env) (dict : List (String × Path)) (f : File) :
    Path :=
  (lookupAssoc dict f.id).getD (env.cwd ++ nameParts f.name)

/-- Lines 136–158 of `exe.py`: one iteration of the per-file loop —
resolve the file's source, record lazy fetches in the fetch table,
fetch eager files, check local files exist, then digest-check and link. -/
def processFile (env : Env) (dict : List (String × Path)) (chroot : Path)
    (st : ExpSt) (file : File) : Except ExportError ExpSt :=
  match file.source with
  | .fetch url true =>
    .ok ⟨st.fs, insertAssoc st.fetchUrls file.name url⟩
  | .fetch url false =>
    match env.fetch url file.digest file.isExecutable with
    | none => .error (.fetchFailed url)
    | some (p, c) => linkLocal env chroot ⟨addContent st.fs p c, st.fetchUrls⟩ file p
  | .unset =>
    let p := resolveUnsetPath env dict file
    if pathExists st.fs p then linkLocal env chroot st file p
    else .error (.missingFile file.id p)

/-- Runs the per-file loop over a list of files, aborting on the first
error (the Python loop raises out of `_export`). -/
def procAll (env : Env) (dict : List (String × Path)) (chroot : Path) :
    List File → ExpSt → Except ExportError ExpSt
  | [], st => .ok st
  | f :: rest, st =>
    match processFile env dict chroot st f with
    | .error e => .error e
    | .ok st' => procAll env dict chroot rest st'

/-- The distributions resolved for a platform (lines 117–121 of `exe.py`). -/
def distributionsFor (app : Application) (platform : Platform) :
    List Distribution :=
  app.interpreters.filterMap (fun i => i.distribution platform)

/-- The working file list before the lazy fetch helper is considered:
distribution files followed by the application's declared files. -/
def baseFiles (app : Application) (platform : Platform) : List File :=
  (distributionsFor app platform).map (·.file) ++ app.files

/-- Whether any working file has a lazy fetch source (line 124). -/
def hasLazyFiles (app : Application) (platform : Platform) : Bool :=
  (baseFiles app platform).any isLazyFile

/-- The full working file list: the ptex helper is appended when some file
is lazily fetched (lines 124–127). -/
def workingFiles (env : Env) (app : Application) (platform : Platform) :
    List File :=
  if hasLazyFiles app platform
  then baseFiles app platform ++ [env.ptexFile platform]
  else baseFiles app platform

/-- The id → resolved path override table built from `--file` mappings
(lines 112–114): `{fm.id: fm.path.resolve() for fm in file_mappings}`. -/
def mappingDict (env : Env) (mappings : List FileMapping) :
    List (String × Path) :=
  mappings.foldl (fun d fm => insertAssoc d fm.id (env.resolve fm.path)) []

/-- The binding argument for the fetch helper (lines 128–132):
`application.ptex.argv1` when configured, else the lift manifest
placeholder. -/
def ptexArgv1 (app : Application) : String :=
  match app.ptex with
  | some ps => ps.argv1.getD "\x7bscie.lift\x7d"
  | none => "\x7bscie.lift\x7d"

/-- Modelled from the spec: `Fetch.create_binding` of `science.model` (not
under `src/`) — the synthesized binding that invokes the fetch helper with
its argument. -/
def fetchCreateBinding (fetchExe : File) (argv1 : String) : Command :=
  ⟨"fetch", fetchExe.name, [argv1]⟩

/-- The provenance block written when `--include-provenance` is set
(lines 162–171). -/
def provenanceInfo (env : Env) : List (String × String) :=
  [("note", "Generated by science."),
   ("version", env.scienceVersion),
   ("url", "https://github.com/a-scie/lift/releases/tag/v"
      ++ env.scienceVersion ++ "/"
      ++ env.qualifiedBinaryName env.current "science")]

/-- The per-platform staging directory `dest_dir / platform.value`. -/
def exportChroot (destDir : Path) (platform : Platform) : Path :=
  destDir ++ [platform.value]

/-- The id → path table used by the per-file loop: the `--file` overrides,
plus the ptex helper's staged path when a lazy file is present
(line 126). -/
def exportDict (env : Env) (app : Application) (mappings : List FileMapping)
    (platform : Platform) (destDir : Path) : List (String × Path) :=
  if hasLazyFiles app platform
  then insertAssoc (mappingDict env mappings) (env.ptexFile platform).id
        (exportChroot destDir platform
          ++ nameParts (env.ptexFile platform).name)
  else mappingDict env mappings

/-- The staging filesystem right before the per-file loop: the freshly
created directory, plus the ptex helper executable dropped into it by
`a_scie.ptex` when a lazy file is present (line 125). -/
def exportInitFS (env : Env) (app : Application) (platform : Platform)
    (destDir : Path) (fs2 : FS) : FS :=
  if hasLazyFiles app platform
  then addContent fs2
        (exportChroot destDir platform
          ++ nameParts (env.ptexFile platform).name)
        (env.ptexContent platform)
  else fs2

/-- The manifest record passed to `lift.emit_manifest` (lines 173–188). -/
def exportManifest (env : Env) (app : Application) (platform : Platform)
    (includeProvenance : Bool) (fetchUrls : List (String × String)) :
    Manifest :=
  { name := app.name
    description := app.description
    loadDotenv := app.loadDotenv
    scieJump := app.scieJump
    platform := platform
    distributions := distributionsFor app platform
    interpreterGroups := app.interpreterGroups
    files := workingFiles env app platform
    commands := app.commands
    bindings :=
      (if hasLazyFiles app platform
       then [fetchCreateBinding (env.ptexFile platform) (ptexArgv1 app)]
       else [])
        ++ app.bindings
    fetchUrls := fetchUrls
    buildInfo := if includeProvenance then provenanceInfo env else [] }

/-- The body of `_export` for one platform (lines 103–189 of `exe.py`):
create the staging directory (clearing it first under `force`), assemble
the working file set (adding the ptex helper when a lazy file is present),
resolve and link every file, and emit the manifest to
`<staging-directory>/lift.json`. -/
def exportPlatform (env : Env) (app : Application)
    (mappings : List FileMapping) (destDir : Path) (force : Bool)
    (includeProvenance : Bool) (fs0 : FS) (platform : Platform) :
    Except ExportError (FS × Manifest × Path) :=
  let chroot := exportChroot destDir platform
  let fs1 := if force then rmtree fs0 chroot else fs0
  match mkdirFresh fs1 chroot with
  | .error e => .error e
  | .ok fs2 =>
    match procAll env (exportDict env app mappings platform destDir) chroot
        (workingFiles env app platform)
        ⟨exportInitFS env app platform destDir fs2, []⟩ with
    | .error e => .error e
    | .ok st =>
      let manifest := exportManifest env app platform includeProvenance
        st.fetchUrls
      .ok (addContent st.fs (chroot ++ ["lift.json"])
             (env.serializeManifest manifest),
           manifest, chroot ++ ["lift.json"])

/-- The whole `_export` (fully consumed, as the `export` command does):
iterates over the requested platforms, defaulting to the application's
platforms when none (or an empty set) is passed. -/
def exportApp (env : Env) (app : Application) (mappings : List FileMapping)
    (destDir : Path) (force : Bool) (platformsArg : Option (List Platform))
    (includeProvenance : Bool) (fs : FS) :
    Except ExportError (FS × List (Platform × Manifest × Path)) :=
  let ps :=
    match platformsArg with
    | none => app.platforms
    | some [] => app.platforms
    | some l => l
  ps.foldlM
    (fun acc p => do
      let (fs', mf, lp) ←
        exportPlatform env app mappings destDir force includeProvenance acc.1 p
      .ok (fs', acc.2 ++ [(p, mf, lp)]))
    ((fs, []) : FS × List (Platform × Manifest × Path))

/-- Errors aborting a `build` invocation. -/
inductive BuildError
  | exportFailed (e : ExportError)
  | jumpVersionTooOld (v : Version)
  | packerFailed (p : Platform)
deriving DecidableEq, Repr

/-- The observable outcome of a `build` run: final filesystem, the packer
invocations made, the binaries produced, whether the cross-platform
restriction warning was emitted, and the platforms exported. -/
structure BuildOut where
  fs : FS
  packerCalls : List (Path × Path × Path)
  binaries : List Path
  warnedRestriction : Bool
  exportedPlatforms : List Platform
deriving Repr

/-- Whether the declared platform set equals `frozenset([current])`
(line 258: `platforms != frozenset([current_platform])` is its negation). -/
def platformsEqCurrentOnly (ps : List Platform) (c : Platform) : Bool :=
  !ps.isEmpty && ps.all (· == c)

/-- The declared minimum scie-jump version, when any (line 271). -/
def scieJumpVersionOf (app : Application) : Option Version :=
  match app.scieJump with
  | some sj => sj.version
  | none => none

/-- Lines 256–278 of `build`: compute the platform-suffix decision from the
declared platform set, restrict to the current platform (with a warning)
when a custom scie-jump is combined with that decision, then abort when
the declared scie-jump version is below the 0.9.0 floor.  Returns the
effective platforms, the suffix decision and whether the warning fired. -/
def buildPrelude (app : Application) (useJump : Option Path)
    (suffixFlag : Bool) (current : Platform) :
    Except BuildError (List Platform × Bool × Bool) :=
  let useSuffix := suffixFlag || !platformsEqCurrentOnly app.platforms current
  let warned := useJump.isSome && useSuffix
  let platforms :=
    if useJump.isSome && useSuffix then [current] else app.platforms
  match scieJumpVersionOf app with
  | some v =>
    if versionLt v floorVersion then .error (.jumpVersionTooOld v)
    else .ok (platforms, useSuffix, warned)
  | none => .ok (platforms, useSuffix, warned)

/-- The default Python buffered-IO chunk size (`io.DEFAULT_BUFFER_SIZE`). -/
def ioDefaultBufferSize : Nat := 8192

/-- Splits a byte string into chunks of `m + 1` bytes (all full except
possibly the last), as `iter(lambda: fp.read(m + 1), b"")` yields them. -/
def chunkedPos (m : Nat) : Bytes → List Bytes
  | [] => []
  | b :: bs => ((b :: bs).take (m + 1)) :: chunkedPos m (bs.drop m)
termination_by l => l.length
decreasing_by simp [List.length_drop]; omega

/-- The chunk stream of the final binary, read `io.DEFAULT_BUFFER_SIZE`
bytes at a time. -/
def chunked (content : Bytes) : List Bytes :=
  chunkedPos (ioDefaultBufferSize - 1) content

/-- A digest algorithm: its canonical `hashlib` name and its digest
function from the full byte stream to digest bytes.  The incremental
accumulator state is the bytes fed so far, mirroring the
`update`/`hexdigest` contract of `hashlib`. -/
structure HashAlgo where
  name : String
  fn : Bytes → Bytes

/-- The lowercase hexadecimal digit characters. -/
def hexChars : List Char := "0123456789abcdef".data

/-- The lowercase hex digit of `n` (for `n < 16`). -/
def hexDigitLower (n : Nat) : Char := hexChars.getD n '0'

/-- Lowercase hex encoding of digest bytes, as `hexdigest()` renders. -/
def hexLowerChars (bs : Bytes) : List Char :=
  (bs.map (fun b => [hexDigitLower (b / 16 % 16), hexDigitLower (b % 16)])).flatten

/-- The character stream of one checksum side-car file:
`f"{digest.hexdigest()} *{dst_binary_name}{os.linesep}"` (line 322). -/
def sidecarText (env : Env) (dstName : String) (digestBytes : Bytes) :
    List Char :=
  hexLowerChars digestBytes ++ (' ' :: '*' :: dstName.data) ++ env.linesep.data

/-- Lines 314–323 of `build`: stream the binary once in fixed-size chunks,
updating every requested digest accumulator on each chunk, then produce
one side-car entry per algorithm, named `<binary-name>.<algorithm>` with
the hex digest, ` *`, the binary name and the line terminator. -/
def sidecarEntries (env : Env) (dstName : String) (content : Bytes)
    (algos : List HashAlgo) : List (String × Bytes) :=
  let chunks := chunked content
  let finalStates :=
    chunks.foldl (fun sts c => sts.map (· ++ c)) (algos.map (fun _ => ([] : Bytes)))
  (algos.zip finalStates).map
    (fun e =>
      (dstName ++ "." ++ e.1.name,
       (sidecarText env dstName (e.1.fn e.2)).map Char.toNat))

/-- Writes the side-car files next to the binary (`dst_binary.with_name`). -/
def writeSidecars (env : Env) (fs : FS) (dstBinary : Path) (dstName : String)
    (content : Bytes) (algos : List HashAlgo) : FS :=
  (sidecarEntries env dstName content algos).foldl
    (fun f e => addContent f (dstBinary.dropLast ++ [e.1]) e.2) fs

/-- Removes the regular file at `p` (the source side of `shutil.move`). -/
def removeFileAt (fs : FS) (p : Path) : FS :=
  ⟨fs.dirs, fs.fileContents.filter (fun e => !(e.1 == p)), fs.links⟩

/-- `shutil.move(src, dst)` for a regular file with contents `c`. -/
def moveFile (fs : FS) (src dst : Path) (c : Bytes) : FS :=
  addContent (removeFileAt fs src) dst c

/-- Lines 286–324 of `build`, one loop iteration: export the sandbox for
the platform, run the packer against the manifest, move the produced
binary to the destination under the platform-qualified or bare name, and
write checksum side-cars.  Returns the advanced state, or the state at
abort together with the aborting error. -/
def buildStep (env : Env) (app : Application) (mappings : List FileMapping)
    (destDir : Path) (useJump : Option Path) (inc : Bool)
    (algos : List HashAlgo) (useSuffix : Bool) (nativeJump : Path)
    (tmpRoot : Path) (p : Platform) (acc : BuildOut) :
    Except (BuildOut × BuildError) BuildOut :=
  match exportPlatform env app mappings tmpRoot false inc acc.fs p with
  | .error e => .error (acc, .exportFailed e)
  | .ok (fs1, _mf, liftPath) =>
    let jumpPath :=
      match useJump with
      | some r => env.customJump r
      | none => env.jump app.scieJump p
    let acc1 : BuildOut :=
      { acc with
          fs := fs1
          exportedPlatforms := acc.exportedPlatforms ++ [p]
          packerCalls := acc.packerCalls ++ [(nativeJump, jumpPath, liftPath)] }
    match env.runPacker nativeJump jumpPath liftPath with
    | none => .error (acc1, .packerFailed p)
    | some binContent =>
      let chroot := tmpRoot ++ [p.value]
      let srcName := env.binaryName env.current app.name
      let fs2 := addContent acc1.fs (chroot ++ [srcName]) binContent
      let fs3 := mkdirAll fs2 destDir
      let dstName :=
        if useSuffix then env.qualifiedBinaryName p app.name
        else env.binaryName p app.name
      let dstBinary := destDir ++ [dstName]
      let fs4 := moveFile fs3 (chroot ++ [srcName]) dstBinary binContent
      let fs5 :=
        if algos.isEmpty then fs4
        else writeSidecars env fs4 dstBinary dstName binContent algos
      .ok { acc1 with fs := fs5, binaries := acc1.binaries ++ [dstBinary] }

/-- Lines 286–324 of `build`: the per-platform loop, strictly sequential,
aborting on the first failing step with no rollback. -/
def buildLoop (env : Env) (app : Application) (mappings : List FileMapping)
    (destDir : Path) (useJump : Option Path) (inc : Bool)
    (algos : List HashAlgo) (useSuffix : Bool) (nativeJump : Path)
    (tmpRoot : Path) : List Platform → BuildOut → BuildOut × Option BuildError
  | [], acc => (acc, none)
  | p :: ps, acc =>
    match buildStep env app mappings destDir useJump inc algos useSuffix
        nativeJump tmpRoot p acc with
    | .error (st, e) => (st, some e)
    | .ok acc' =>
      buildLoop env app mappings destDir useJump inc algos useSuffix
        nativeJump tmpRoot ps acc'

/-- The `build` command (lines 243–324): prelude checks, native jump
acquisition, then the per-platform loop inside the scoped staging root.
Returns the outcome together with the aborting error, if any. -/
def build (env : Env) (app : Application) (mappings : List FileMapping)
    (destDir : Path) (useJump : Option Path) (inc : Bool)
    (algos : List HashAlgo) (suffixFlag : Bool) (tmpRoot : Path) (fs : FS) :
    BuildOut × Option BuildError :=
  let useSuffix :=
    suffixFlag || !platformsEqCurrentOnly app.platforms env.current
  match buildPrelude app useJump suffixFlag env.current with
  | .error e => (⟨fs, [], [], useJump.isSome && useSuffix, []⟩, some e)
  | .ok (platforms, uSuffix, warned) =>
    let nativeJump :=
      match useJump with
      | some r => env.customJump r
      | none => env.jump none env.current
    buildLoop env app mappings destDir useJump inc algos uSuffix nativeJump
      tmpRoot platforms ⟨fs, [], [], warned, []⟩

/-- A concrete environment for witnesses: no fetchable URLs, a bytewise
additive digest, identity-style naming. -/
def sampleEnv : Env :=
  ⟨["home"], fun s => [s], fun c => c.foldl (· + ·) 0, fun _ _ _ => none,
   fun _ => ⟨"ptex", "ptex", true, none, .unset⟩, fun _ => [11],
   fun _ => [], "0.1.0", "\n", ⟨"linux-x86_64"⟩, fun _ n => n,
   fun p n => n ++ "-" ++ p.value, fun _ _ _ => some [7],
   fun _ _ => ["jump"], fun r => r ++ ["bin"]⟩

/-- A concrete application with no files, used to exercise full export and
build runs in witnesses. -/
def sampleApp : Application :=
  ⟨"app", "demo", [⟨"linux-x86_64"⟩], [], [], [], [], none, none, false, []⟩

/-- The filesystem left by a first successful export of `sampleApp`. -/
def sampleFsAfterExport : FS :=
  match exportPlatform sampleEnv sampleApp [] ["dest"] false false
      ⟨[], [], []⟩ ⟨"linux-x86_64"⟩ with
  | .ok (f, _, _) => f
  | .error _ => ⟨[], [], []⟩

/-- An application with one locally mapped file `a` and one lazily
fetched file `b`. -/
def c1App : Application :=
  ⟨"app", "", [⟨"linux-x86_64"⟩], [],
   [⟨"a", "a.bin", false, none, .unset⟩,
    ⟨"b", "b.bin", false, none, .fetch "https://u" true⟩],
   [], [], none, none, false, []⟩

/-- A filesystem holding only the mapped local file for `a`. -/
def c1FS0 : FS := ⟨[], [(["pa"], [1])], []⟩

/-- The result of exporting `c1App` for one platform. -/
def c1Out : FS × Manifest × Path :=
  match exportPlatform sampleEnv c1App [⟨"a", "pa"⟩] ["d"] false false
      c1FS0 ⟨"linux-x86_64"⟩ with
  | .ok o => o
  | .error _ =>
    (c1FS0, ⟨"", "", false, none, ⟨""⟩, [], [], [], [], [], [], []⟩, [])

theorem splitFirst_of_not_mem {sep : Char} {cs : List Char} (h : sep ∉ cs) :
    splitFirst sep cs = none := by
  induction cs with
  | nil => rfl
  | cons c cs ih =>
    simp only [List.mem_cons, not_or] at h
    simp only [splitFirst, if_neg (Ne.symm h.1), ih h.2]

theorem splitFirst_append {sep : Char} {a : List Char} (b : List Char)
    (h : sep ∉ a) : splitFirst sep (a ++ sep :: b) = some (a, b) := by
  induction a with
  | nil => simp [splitFirst]
  | cons c cs ih =>
    simp only [List.mem_cons, not_or] at h
    simp only [List.cons_append, splitFirst, if_neg (Ne.symm h.1), List.append_eq, ih h.2]

/-- C7: file-mapping parsing accepts exactly one `=` separator: an input
with no `=` is rejected with an input error, and an input with more than
one `=` is split only on the first occurrence, so the id is the text
before the first `=` and the path is everything after it (which may
itself contain `=`). -/
theorem claim7_file_mapping_parse (idStr pathStr v : String)
    (hid : '=' ∉ idStr.data) (hv : '=' ∉ v.data) :
    FileMapping.parse (idStr ++ "=" ++ pathStr) = .ok ⟨idStr, pathStr⟩ ∧
    FileMapping.parse v = .error (.invalidFileMapping v) := by
  constructor
  · obtain ⟨li⟩ := idStr
    obtain ⟨lp⟩ := pathStr
    have hdata : ((String.mk li) ++ "=" ++ (String.mk lp)).data
        = li ++ '=' :: lp := by
      simp [String.data_append]
    unfold FileMapping.parse
    rw [hdata, splitFirst_append _ hid]
  · unfold FileMapping.parse
    rw [splitFirst_of_not_mem hv]

/-- Witness for C7 at a concrete input containing a second `=` inside the
path part. -/
theorem claim7_witness :
    FileMapping.parse "app=dist/a=b.txt" = .ok ⟨"app", "dist/a=b.txt"⟩ ∧
    FileMapping.parse "noseparator"
      = .error (.invalidFileMapping "noseparator") := by
  have h := claim7_file_mapping_parse "app" "dist/a=b.txt" "noseparator"
    (by decide) (by decide)
  exact ⟨h.1, h.2⟩

theorem chunkedPos_flatten (m : Nat) (l : Bytes) :
    (chunkedPos m l).flatten = l := by
  induction l using chunkedPos.induct m with
  | case1 => rw [chunkedPos]; rfl
  | case2 b bs ih =>
    rw [chunkedPos]
    simp only [List.flatten_cons, ih, List.take_succ_cons]
    simp [List.take_append_drop]

theorem streamFold_eq (chunks : List Bytes) (states : List Bytes) :
    chunks.foldl (fun sts c => sts.map (· ++ c)) states
      = states.map (· ++ chunks.flatten) := by
  induction chunks generalizing states with
  | nil => simp
  | cons c cs ih =>
    simp only [List.foldl_cons, ih, List.map_map, List.flatten_cons]
    apply List.map_congr_left
    intro a _
    simp [List.append_assoc]

theorem zip_self_map {α β γ : Type} (f : α → β) (F : α × β → γ)
    (l : List α) :
    (l.zip (l.map f)).map F = l.map (fun a => F (a, f a)) := by
  induction l with
  | nil => rfl
  | cons a l ih => simp [ih]

theorem hexDigitLower_mem (n : Nat) : hexDigitLower n ∈ hexChars := by
  unfold hexDigitLower
  rcases Nat.lt_or_ge n 16 with h | h
  · interval_cases n <;> decide
  · rw [List.getD_eq_default]
    · decide
    · simpa [hexChars] using h

/-- C9: for a non-empty requested algorithm list, streaming the binary
once in fixed-size chunks while updating the accumulators of all
requested digests in that single pass yields, for each algorithm, a
side-car entry named `<binary-name>.<algorithm>` whose content equals the
lowercase hex digest of the whole binary, a space, an asterisk, the
binary name and the line terminator; every hex character is a lowercase
hex digit. -/
theorem claim9_sidecar_hashing (env : Env) (dstName : String)
    (content : Bytes) (algos : List HashAlgo) (h : algos ≠ []) :
    sidecarEntries env dstName content algos
      = algos.map (fun a =>
          (dstName ++ "." ++ a.name,
           (sidecarText env dstName (a.fn content)).map Char.toNat)) ∧
    ∀ a ∈ algos, ∀ ch ∈ hexLowerChars (a.fn content), ch ∈ hexChars := by
  constructor
  · simp only [sidecarEntries]
    rw [streamFold_eq]
    have hflat : (chunked content).flatten = content := chunkedPos_flatten _ _
    rw [List.map_map]
    have hcc : ((fun x : Bytes => x ++ (chunked content).flatten)
        ∘ (fun _ : HashAlgo => ([] : Bytes))) = fun _ => content := by
      funext a
      simp [hflat]
    rw [hcc]
    exact zip_self_map (fun _ => content)
      (fun e => (dstName ++ "." ++ e.1.name,
        (sidecarText env dstName (e.1.fn e.2)).map Char.toNat)) algos
  · intro a _ ch hch
    unfold hexLowerChars at hch
    rw [List.mem_flatten] at hch
    obtain ⟨l, hl, hchl⟩ := hch
    rw [List.mem_map] at hl
    obtain ⟨b, _, rfl⟩ := hl
    simp only [List.mem_cons, List.not_mem_nil, or_false] at hchl
    rcases hchl with rfl | rfl
    · exact hexDigitLower_mem _
    · exact hexDigitLower_mem _

/-- Witness for C9: one additive checksum algorithm over a two-byte file. -/
theorem claim9_witness :
    sidecarEntries
        ⟨["home"], fun s => [s], fun _ => 0, fun _ _ _ => none,
          fun _ => ⟨"ptex", "ptex", true, none, .unset⟩, fun _ => [],
          fun _ => [], "0.1.0", "\n", ⟨"linux-x86_64"⟩, fun _ n => n,
          fun p n => n ++ "-" ++ p.value, fun _ _ _ => some [7],
          fun _ _ => ["jump"], fun r => r ++ ["bin"]⟩
        "app" [0, 255] [⟨"sum", fun c => [c.foldl (· + ·) 0 % 256]⟩]
      = [("app.sum", "ff *app\n".data.map Char.toNat)] := by
  have h := claim9_sidecar_hashing
    ⟨["home"], fun s => [s], fun _ => 0, fun _ _ _ => none,
      fun _ => ⟨"ptex", "ptex", true, none, .unset⟩, fun _ => [],
      fun _ => [], "0.1.0", "\n", ⟨"linux-x86_64"⟩, fun _ n => n,
      fun p n => n ++ "-" ++ p.value, fun _ _ _ => some [7],
      fun _ _ => ["jump"], fun r => r ++ ["bin"]⟩
    "app" [0, 255] [⟨"sum", fun c => [c.foldl (· + ·) 0 % 256]⟩]
    (by simp)
  rw [h.1]
  decide

theorem pathExists_rmtree {fs : FS} {root q : Path}
    (h : pathExists (rmtree fs root) q) :
    pathExists fs q ∧ pathUnder root q = false := by
  rcases h with hd | ⟨e, he, rfl⟩ | ⟨e, he, rfl⟩
  · rw [rmtree, List.mem_filter] at hd
    obtain ⟨hmem, hp⟩ := hd
    rw [Bool.not_eq_true'] at hp
    exact ⟨Or.inl hmem, hp⟩
  · rw [rmtree, List.mem_filter] at he
    obtain ⟨hmem, hp⟩ := he
    rw [Bool.not_eq_true'] at hp
    exact ⟨Or.inr (Or.inl ⟨e, hmem, rfl⟩), hp⟩
  · rw [rmtree, List.mem_filter] at he
    obtain ⟨hmem, hp⟩ := he
    rw [Bool.not_eq_true'] at hp
    exact ⟨Or.inr (Or.inr ⟨e, hmem, rfl⟩), hp⟩

theorem pathExists_addContent {fs : FS} {p q : Path} {c : Bytes} :
    pathExists (addContent fs p c) q ↔ q = p ∨ pathExists fs q := by
  unfold pathExists addContent
  simp only [List.mem_cons]
  constructor
  · rintro (hd | ⟨e, (rfl | he), rfl⟩ | ⟨e, he, rfl⟩)
    · exact Or.inr (Or.inl hd)
    · exact Or.inl rfl
    · exact Or.inr (Or.inr (Or.inl ⟨e, he, rfl⟩))
    · exact Or.inr (Or.inr (Or.inr ⟨e, he, rfl⟩))
  · rintro (rfl | hd | ⟨e, he, rfl⟩ | ⟨e, he, rfl⟩)
    · exact Or.inr (Or.inl ⟨(q, c), Or.inl rfl, rfl⟩)
    · exact Or.inl hd
    · exact Or.inr (Or.inl ⟨e, Or.inr he, rfl⟩)
    · exact Or.inr (Or.inr ⟨e, he, rfl⟩)

theorem pathExists_mkdirAll {fs : FS} {r q : Path} :
    pathExists (mkdirAll fs r) q ↔ q ∈ ancestorsOf r ∨ pathExists fs q := by
  unfold pathExists mkdirAll
  simp only [List.mem_append]
  constructor
  · rintro ((h | h) | h | h)
    · exact Or.inl h
    · exact Or.inr (Or.inl h)
    · exact Or.inr (Or.inr (Or.inl h))
    · exact Or.inr (Or.inr (Or.inr h))
  · rintro (h | h | h | h)
    · exact Or.inl (Or.inl h)
    · exact Or.inl (Or.inr h)
    · exact Or.inr (Or.inl h)
    · exact Or.inr (Or.inr h)

theorem mem_ancestorsOf_length {p q : Path} (h : q ∈ ancestorsOf p) :
    q.length ≤ p.length := by
  unfold ancestorsOf at h
  rw [List.mem_map] at h
  obtain ⟨i, _, rfl⟩ := h
  simp [List.length_take]

theorem self_mem_ancestorsOf {p : Path} (h : p ≠ []) : p ∈ ancestorsOf p := by
  unfold ancestorsOf
  rw [List.mem_map]
  have hpos : 0 < p.length := List.length_pos.mpr h
  refine ⟨p.length - 1, ?_, ?_⟩
  · rw [List.mem_range]; omega
  · have : p.length - 1 + 1 = p.length := by omega
    rw [this, List.take_length]

/-- C6: under `force` any pre-existing per-platform staging directory is
removed recursively (all entries at or below it are gone) before
re-export, and the export then proceeds exactly as a fresh one; without
`force`, directory creation fails with a directory-exists error whenever
the per-platform directory already exists, rather than silently
overwriting. -/
theorem claim6_force_and_no_overwrite (env : Env) (app : Application)
    (mappings : List FileMapping) (destDir : Path) (inc : Bool) (fs : FS)
    (platform : Platform) :
    (exportPlatform env app mappings destDir true inc fs platform
       = exportPlatform env app mappings destDir false inc
           (rmtree fs (destDir ++ [platform.value])) platform) ∧
    (∀ q, pathUnder (destDir ++ [platform.value]) q = true
       → ¬ pathExists (rmtree fs (destDir ++ [platform.value])) q) ∧
    (pathExists fs (destDir ++ [platform.value])
       → exportPlatform env app mappings destDir false inc fs platform
           = .error (.dirExists (destDir ++ [platform.value]))) := by
  refine ⟨rfl, ?_, ?_⟩
  · intro q hq hex
    have := (pathExists_rmtree hex).2
    rw [hq] at this
    exact Bool.noConfusion this
  · intro hex
    have hmk : mkdirFresh fs (exportChroot destDir platform)
        = .error (.dirExists (destDir ++ [platform.value])) := by
      unfold mkdirFresh exportChroot
      rw [if_pos hex]
    simp only [exportPlatform, Bool.false_eq_true, if_false, hmk]

/-- Witness for C6: a filesystem where the staging directory pre-exists. -/
theorem claim6_witness :
    (¬ pathExists
        (rmtree ⟨[["dest", "linux-x86_64"]], [(["dest", "linux-x86_64", "stale"], [1])], []⟩
          (["dest"] ++ [("linux-x86_64" : String)]))
        ["dest", "linux-x86_64", "stale"]) ∧
    (exportPlatform
        ⟨["home"], fun s => [s], fun _ => 0, fun _ _ _ => none,
          fun _ => ⟨"ptex", "ptex", true, none, .unset⟩, fun _ => [],
          fun _ => [], "0.1.0", "\n", ⟨"linux-x86_64"⟩, fun _ n => n,
          fun p n => n ++ "-" ++ p.value, fun _ _ _ => some [7],
          fun _ _ => ["jump"], fun r => r ++ ["bin"]⟩
        ⟨"app", "", [⟨"linux-x86_64"⟩], [], [], [], [], none, none, false, []⟩
        [] ["dest"] false false
        ⟨[["dest", "linux-x86_64"]], [(["dest", "linux-x86_64", "stale"], [1])], []⟩
        ⟨"linux-x86_64"⟩
      = .error (.dirExists ["dest", "linux-x86_64"])) := by
  have h := claim6_force_and_no_overwrite
    ⟨["home"], fun s => [s], fun _ => 0, fun _ _ _ => none,
      fun _ => ⟨"ptex", "ptex", true, none, .unset⟩, fun _ => [],
      fun _ => [], "0.1.0", "\n", ⟨"linux-x86_64"⟩, fun _ n => n,
      fun p n => n ++ "-" ++ p.value, fun _ _ _ => some [7],
      fun _ _ => ["jump"], fun r => r ++ ["bin"]⟩
    ⟨"app", "", [⟨"linux-x86_64"⟩], [], [], [], [], none, none, false, []⟩
    [] ["dest"] false
    ⟨[["dest", "linux-x86_64"]], [(["dest", "linux-x86_64", "stale"], [1])], []⟩
    ⟨"linux-x86_64"⟩
  exact ⟨h.2.1 ["dest", "linux-x86_64", "stale"] (by decide),
    h.2.2 (by decide)⟩

theorem placeLink_isOk (fs : FS) (target src : Path) :
    ∃ fs', placeLink fs target src = .ok fs' := by
  unfold placeLink symlinkTo
  by_cases h : pathExists (mkdirAll fs target.dropLast) target
  · rw [if_pos h]
    exact ⟨_, rfl⟩
  · rw [if_neg h, if_neg h]
    exact ⟨_, rfl⟩

theorem placeLink_skips (fs : FS) (target src : Path)
    (h : pathExists (mkdirAll fs target.dropLast) target) :
    placeLink fs target src = .ok (mkdirAll fs target.dropLast) := by
  unfold placeLink
  rw [if_pos h]

theorem placeLink_adds (fs : FS) (target src : Path)
    (h : ¬ pathExists (mkdirAll fs target.dropLast) target) :
    placeLink fs target src
      = .ok ⟨(mkdirAll fs target.dropLast).dirs,
             (mkdirAll fs target.dropLast).fileContents,
             (target, src) :: (mkdirAll fs target.dropLast).links⟩ := by
  unfold placeLink symlinkTo
  rw [if_neg h, if_neg h]

theorem maybeCheckDigest_none (env : Env) (fs : FS) (file : File) (p : Path)
    (hdig : file.digest = none) : maybeCheckDigest env fs file p = .ok () := by
  unfold maybeCheckDigest
  rw [hdig]

theorem maybeCheckDigest_some (env : Env) (fs : FS) (file : File) (p : Path)
    (c : Bytes) (d : Nat) (hdig : file.digest = some d)
    (hread : readBytes fs p = some c) :
    maybeCheckDigest env fs file p
      = (if env.hashFn c = d then .ok ()
         else .error (.digestMismatch file.name d (env.hashFn c))) := by
  unfold maybeCheckDigest
  rw [hdig, hread]

theorem maybeCheckDigest_shape (env : Env) (fs : FS) (file : File)
    (p : Path) :
    maybeCheckDigest env fs file p = .ok () ∨
    (∃ q, maybeCheckDigest env fs file p = .error (.contentUnreadable q)) ∨
    (∃ n d a, maybeCheckDigest env fs file p
        = .error (.digestMismatch n d a)) := by
  rcases hdig : file.digest with _ | d
  · exact Or.inl (maybeCheckDigest_none env fs file p hdig)
  · rcases hread : readBytes fs p with _ | c
    · refine Or.inr (Or.inl ⟨p, ?_⟩)
      unfold maybeCheckDigest
      rw [hdig, hread]
    · by_cases h : env.hashFn c = d
      · refine Or.inl ?_
        rw [maybeCheckDigest_some env fs file p c d hdig hread, if_pos h]
      · refine Or.inr (Or.inr ⟨file.name, d, env.hashFn c, ?_⟩)
        rw [maybeCheckDigest_some env fs file p c d hdig hread, if_neg h]

theorem linkLocal_digest_error (env : Env) (chroot : Path) (st : ExpSt)
    (file : File) (p : Path) (e : ExportError)
    (hd : maybeCheckDigest env st.fs file p = .error e) :
    linkLocal env chroot st file p = .error e := by
  unfold linkLocal
  rw [hd]

theorem linkLocal_digest_ok (env : Env) (chroot : Path) (st : ExpSt)
    (file : File) (p : Path)
    (hd : maybeCheckDigest env st.fs file p = .ok ()) :
    ∃ fs', linkLocal env chroot st file p = .ok ⟨fs', st.fetchUrls⟩ := by
  unfold linkLocal
  rw [hd]
  obtain ⟨fs', hp⟩ := placeLink_isOk st.fs (chroot ++ nameParts file.name) p
  rw [hp]
  exact ⟨fs', rfl⟩

theorem processFile_unset (env : Env) (dict : List (String × Path))
    (chroot : Path) (st : ExpSt) (f : File) (hsrc : f.source = .unset) :
    processFile env dict chroot st f
      = (if pathExists st.fs (resolveUnsetPath env dict f)
         then linkLocal env chroot st f (resolveUnsetPath env dict f)
         else .error (.missingFile f.id (resolveUnsetPath env dict f))) := by
  unfold processFile
  rw [hsrc]

theorem processFile_eager_some (env : Env) (dict : List (String × Path))
    (chroot : Path) (st : ExpSt) (f : File) (u : String) (p : Path)
    (c : Bytes) (hsrc : f.source = .fetch u false)
    (hfetch : env.fetch u f.digest f.isExecutable = some (p, c)) :
    processFile env dict chroot st f
      = linkLocal env chroot ⟨addContent st.fs p c, st.fetchUrls⟩ f p := by
  unfold processFile
  rw [hsrc]
  dsimp only
  rw [hfetch]

theorem processFile_eager_none (env : Env) (dict : List (String × Path))
    (chroot : Path) (st : ExpSt) (f : File) (u : String)
    (hsrc : f.source = .fetch u false)
    (hfetch : env.fetch u f.digest f.isExecutable = none) :
    processFile env dict chroot st f = .error (.fetchFailed u) := by
  unfold processFile
  rw [hsrc]
  dsimp only
  rw [hfetch]

theorem processFile_lazy (env : Env) (dict : List (String × Path))
    (chroot : Path) (st : ExpSt) (f : File) (u : String)
    (hsrc : f.source = .fetch u true) :
    processFile env dict chroot st f
      = .ok ⟨st.fs, insertAssoc st.fetchUrls f.name u⟩ := by
  unfold processFile
  rw [hsrc]

theorem linkLocal_not_missing (env : Env) (chroot : Path) (st : ExpSt)
    (file : File) (p : Path) (i : String) (q : Path) :
    linkLocal env chroot st file p ≠ .error (.missingFile i q) := by
  rcases maybeCheckDigest_shape env st.fs file p with hd | ⟨r, hd⟩ | ⟨n, d, a, hd⟩
  · obtain ⟨fs', hl⟩ := linkLocal_digest_ok env chroot st file p hd
    rw [hl]
    intro hc
    cases hc
  · rw [linkLocal_digest_error env chroot st file p _ hd]
    intro hc
    cases hc
  · rw [linkLocal_digest_error env chroot st file p _ hd]
    intro hc
    cases hc

/-- C8: for a file whose source is unset, resolution looks up the override
table by the file's id, defaults to `<cwd>/<file-name>` when no override
is present, and fails with a missing-file input error exactly when the
resulting path does not exist. -/
theorem claim8_unset_source_resolution (env : Env)
    (dict : List (String × Path)) (chroot : Path) (st : ExpSt) :
    (∀ f p, lookupAssoc dict f.id = some p →
        resolveUnsetPath env dict f = p) ∧
    (∀ f, lookupAssoc dict f.id = none →
        resolveUnsetPath env dict f = env.cwd ++ nameParts f.name) ∧
    (∀ f, f.source = .unset →
        ¬ pathExists st.fs (resolveUnsetPath env dict f) →
        processFile env dict chroot st f
          = .error (.missingFile f.id (resolveUnsetPath env dict f))) ∧
    (∀ f, f.source = .unset →
        pathExists st.fs (resolveUnsetPath env dict f) →
        ∀ i q, processFile env dict chroot st f
          ≠ .error (.missingFile i q)) := by
  refine ⟨?_, ?_, ?_, ?_⟩
  · intro f p hl
    unfold resolveUnsetPath
    rw [hl]
    rfl
  · intro f hl
    unfold resolveUnsetPath
    rw [hl]
    rfl
  · intro f hsrc hne
    rw [processFile_unset env dict chroot st f hsrc, if_neg hne]
  · intro f hsrc hex i q
    rw [processFile_unset env dict chroot st f hsrc, if_pos hex]
    exact linkLocal_not_missing env chroot st f _ i q

/-- Witness for C8: a mapped file resolving through the override table,
and an unmapped file defaulting to a missing `<cwd>/<name>` path. -/
theorem claim8_witness :
    resolveUnsetPath
        ⟨["home"], fun s => [s], fun _ => 0, fun _ _ _ => none,
          fun _ => ⟨"ptex", "ptex", true, none, .unset⟩, fun _ => [],
          fun _ => [], "0.1.0", "\n", ⟨"linux-x86_64"⟩, fun _ n => n,
          fun p n => n ++ "-" ++ p.value, fun _ _ _ => some [7],
          fun _ _ => ["jump"], fun r => r ++ ["bin"]⟩
        [("a", ["data", "a.bin"])] ⟨"a", "a.bin", false, none, .unset⟩
      = ["data", "a.bin"] ∧
    processFile
        ⟨["home"], fun s => [s], fun _ => 0, fun _ _ _ => none,
          fun _ => ⟨"ptex", "ptex", true, none, .unset⟩, fun _ => [],
          fun _ => [], "0.1.0", "\n", ⟨"linux-x86_64"⟩, fun _ n => n,
          fun p n => n ++ "-" ++ p.value, fun _ _ _ => some [7],
          fun _ _ => ["jump"], fun r => r ++ ["bin"]⟩
        [("a", ["data", "a.bin"])] ["dest", "linux-x86_64"]
        ⟨⟨[], [], []⟩, []⟩ ⟨"b", "b.bin", false, none, .unset⟩
      = .error (.missingFile "b"
          (resolveUnsetPath
            ⟨["home"], fun s => [s], fun _ => 0, fun _ _ _ => none,
              fun _ => ⟨"ptex", "ptex", true, none, .unset⟩, fun _ => [],
              fun _ => [], "0.1.0", "\n", ⟨"linux-x86_64"⟩, fun _ n => n,
              fun p n => n ++ "-" ++ p.value, fun _ _ _ => some [7],
              fun _ _ => ["jump"], fun r => r ++ ["bin"]⟩
            [("a", ["data", "a.bin"])] ⟨"b", "b.bin", false, none, .unset⟩)) := by
  have h := claim8_unset_source_resolution
    ⟨["home"], fun s => [s], fun _ => 0, fun _ _ _ => none,
      fun _ => ⟨"ptex", "ptex", true, none, .unset⟩, fun _ => [],
      fun _ => [], "0.1.0", "\n", ⟨"linux-x86_64"⟩, fun _ n => n,
      fun p n => n ++ "-" ++ p.value, fun _ _ _ => some [7],
      fun _ _ => ["jump"], fun r => r ++ ["bin"]⟩
    [("a", ["data", "a.bin"])] ["dest", "linux-x86_64"] ⟨⟨[], [], []⟩, []⟩
  exact ⟨h.1 ⟨"a", "a.bin", false, none, .unset⟩ ["data", "a.bin"] rfl,
    h.2.2.1 ⟨"b", "b.bin", false, none, .unset⟩ rfl (by decide)⟩

/-- C5: a file carrying a declared digest that resolves to a local path —
locally supplied or eagerly fetched — fails with a digest-mismatch error
exactly when the recomputed digest of the resolved content differs from
the declared one, and succeeds otherwise; a lazily fetched file undergoes
no digest check at export time. -/
theorem claim5_digest_checking (env : Env) (dict : List (String × Path))
    (chroot : Path) (st : ExpSt) :
    (∀ f p c d, f.source = .unset → resolveUnsetPath env dict f = p →
        pathExists st.fs p → readBytes st.fs p = some c →
        f.digest = some d →
        ((env.hashFn c ≠ d →
            processFile env dict chroot st f
              = .error (.digestMismatch f.name d (env.hashFn c))) ∧
         (env.hashFn c = d →
            ∃ st', processFile env dict chroot st f = .ok st'))) ∧
    (∀ f u p c d, f.source = .fetch u false →
        env.fetch u f.digest f.isExecutable = some (p, c) →
        f.digest = some d →
        ((env.hashFn c ≠ d →
            processFile env dict chroot st f
              = .error (.digestMismatch f.name d (env.hashFn c))) ∧
         (env.hashFn c = d →
            ∃ st', processFile env dict chroot st f = .ok st'))) ∧
    (∀ f u, f.source = .fetch u true →
        processFile env dict chroot st f
          = .ok ⟨st.fs, insertAssoc st.fetchUrls f.name u⟩) := by
  refine ⟨?_, ?_, ?_⟩
  · intro f p c d hsrc hres hex hread hdig
    rw [← hres] at hex
    constructor
    · intro hne
      have hmk : maybeCheckDigest env st.fs f (resolveUnsetPath env dict f)
          = .error (.digestMismatch f.name d (env.hashFn c)) := by
        rw [hres, maybeCheckDigest_some env st.fs f p c d hdig hread,
          if_neg hne]
      rw [processFile_unset env dict chroot st f hsrc, if_pos hex,
        linkLocal_digest_error env chroot st f _ _ hmk]
    · intro heq
      have hmk : maybeCheckDigest env st.fs f (resolveUnsetPath env dict f)
          = .ok () := by
        rw [hres, maybeCheckDigest_some env st.fs f p c d hdig hread,
          if_pos heq]
      rw [processFile_unset env dict chroot st f hsrc, if_pos hex]
      obtain ⟨fs', hl⟩ := linkLocal_digest_ok env chroot st f
        (resolveUnsetPath env dict f) hmk
      rw [hl]
      exact ⟨_, rfl⟩
  · intro f u p c d hsrc hfetch hdig
    have hread : readBytes (addContent st.fs p c) p = some c := by
      unfold readBytes addContent
      simp [List.find?]
    constructor
    · intro hne
      rw [processFile_eager_some env dict chroot st f u p c hsrc hfetch]
      exact linkLocal_digest_error env chroot ⟨addContent st.fs p c, st.fetchUrls⟩
        f p _ (by rw [maybeCheckDigest_some env _ f p c d hdig hread, if_neg hne])
    · intro heq
      rw [processFile_eager_some env dict chroot st f u p c hsrc hfetch]
      obtain ⟨fs', hl⟩ := linkLocal_digest_ok env chroot
        ⟨addContent st.fs p c, st.fetchUrls⟩ f p
        (by rw [maybeCheckDigest_some env _ f p c d hdig hread, if_pos heq])
      rw [hl]
      exact ⟨_, rfl⟩
  · intro f u hsrc
    exact processFile_lazy env dict chroot st f u hsrc

/-- Witness for C5: a mismatching declared digest fails with the mismatch
error, and a lazy file with a declared digest skips the check entirely. -/
theorem claim5_witness :
    (processFile
        ⟨["home"], fun s => [s], fun c => c.foldl (· + ·) 0,
          fun _ _ _ => none,
          fun _ => ⟨"ptex", "ptex", true, none, .unset⟩, fun _ => [],
          fun _ => [], "0.1.0", "\n", ⟨"linux-x86_64"⟩, fun _ n => n,
          fun p n => n ++ "-" ++ p.value, fun _ _ _ => some [7],
          fun _ _ => ["jump"], fun r => r ++ ["bin"]⟩
        [("a", ["data", "a.bin"])] ["dest", "linux-x86_64"]
        ⟨⟨[], [(["data", "a.bin"], [1, 2])], []⟩, []⟩
        ⟨"a", "a.bin", false, some 9, .unset⟩
      = .error (.digestMismatch "a.bin" 9 3)) ∧
    (processFile
        ⟨["home"], fun s => [s], fun c => c.foldl (· + ·) 0,
          fun _ _ _ => none,
          fun _ => ⟨"ptex", "ptex", true, none, .unset⟩, fun _ => [],
          fun _ => [], "0.1.0", "\n", ⟨"linux-x86_64"⟩, fun _ n => n,
          fun p n => n ++ "-" ++ p.value, fun _ _ _ => some [7],
          fun _ _ => ["jump"], fun r => r ++ ["bin"]⟩
        [("a", ["data", "a.bin"])] ["dest", "linux-x86_64"]
        ⟨⟨[], [(["data", "a.bin"], [1, 2])], []⟩, []⟩
        ⟨"lazy", "lazy.bin", false, some 9, .fetch "https://u" true⟩
      = .ok ⟨⟨[], [(["data", "a.bin"], [1, 2])], []⟩,
             [("lazy.bin", "https://u")]⟩) := by
  have h := claim5_digest_checking
    ⟨["home"], fun s => [s], fun c => c.foldl (· + ·) 0,
      fun _ _ _ => none,
      fun _ => ⟨"ptex", "ptex", true, none, .unset⟩, fun _ => [],
      fun _ => [], "0.1.0", "\n", ⟨"linux-x86_64"⟩, fun _ n => n,
      fun p n => n ++ "-" ++ p.value, fun _ _ _ => some [7],
      fun _ _ => ["jump"], fun r => r ++ ["bin"]⟩
    [("a", ["data", "a.bin"])] ["dest", "linux-x86_64"]
    ⟨⟨[], [(["data", "a.bin"], [1, 2])], []⟩, []⟩
  refine ⟨?_, ?_⟩
  · exact (h.1 ⟨"a", "a.bin", false, some 9, .unset⟩
      ["data", "a.bin"] [1, 2] 9 rfl rfl (by decide) rfl rfl).1 (by decide)
  · exact h.2.2 ⟨"lazy", "lazy.bin", false, some 9, .fetch "https://u" true⟩
      "https://u" rfl

/-- C3: a custom packer override together with more than one declared
target platform restricts the effective platform set to exactly the
current platform, emits the warning, and does not abort the build
(the prelude returns normally whenever the version floor is met). -/
theorem claim3_custom_packer_restricts_platforms (app : Application)
    (useJumpPath : Path) (suffixFlag : Bool) (current p₁ p₂ : Platform)
    (h1 : p₁ ∈ app.platforms) (h2 : p₂ ∈ app.platforms) (hne : p₁ ≠ p₂)
    (hv : ∀ v, scieJumpVersionOf app = some v
      → versionLt v floorVersion = false) :
    buildPrelude app (some useJumpPath) suffixFlag current
      = .ok ([current], true, true) := by
  have hset : platformsEqCurrentOnly app.platforms current = false := by
    by_contra hc
    rw [Bool.not_eq_false, platformsEqCurrentOnly, Bool.and_eq_true,
      List.all_eq_true] at hc
    have e1 := hc.2 p₁ h1
    have e2 := hc.2 p₂ h2
    rw [beq_iff_eq] at e1 e2
    exact hne (e1.trans e2.symm)
  unfold buildPrelude
  rw [hset]
  cases hsv : scieJumpVersionOf app with
  | none => simp
  | some w => simp [hv w hsv]

/-- Witness for C3: a two-platform application with a custom jump path. -/
theorem claim3_witness :
    buildPrelude
      ⟨"app", "", [⟨"linux-x86_64"⟩, ⟨"macos-aarch64"⟩], [], [], [], [],
        none, none, false, []⟩
      (some ["jump"]) false ⟨"linux-x86_64"⟩
      = .ok ([⟨"linux-x86_64"⟩], true, true) := by
  exact claim3_custom_packer_restricts_platforms _ _ _ _
    ⟨"linux-x86_64"⟩ ⟨"macos-aarch64"⟩
    (by decide) (by decide) (by decide) (by intro v hv; cases hv)

/-- C4: a declared minimum packer version strictly below 0.9.0 aborts the
build before any platform is processed: no filesystem change, no export,
no packer invocation, no binary — for single- and multi-platform
applications alike. -/
theorem claim4_low_jump_version_aborts (env : Env) (app : Application)
    (mappings : List FileMapping) (destDir : Path) (useJump : Option Path)
    (inc : Bool) (algos : List HashAlgo) (suffixFlag : Bool) (tmpRoot : Path)
    (fs : FS) (sj : ScieJump) (v : Version)
    (h1 : app.scieJump = some sj) (h2 : sj.version = some v)
    (h3 : versionLt v floorVersion = true) :
    (build env app mappings destDir useJump inc algos suffixFlag tmpRoot fs).2
        = some (.jumpVersionTooOld v) ∧
    (build env app mappings destDir useJump inc algos suffixFlag tmpRoot fs).1.fs
        = fs ∧
    (build env app mappings destDir useJump inc algos suffixFlag tmpRoot
        fs).1.packerCalls = [] ∧
    (build env app mappings destDir useJump inc algos suffixFlag tmpRoot
        fs).1.binaries = [] ∧
    (build env app mappings destDir useJump inc algos suffixFlag tmpRoot
        fs).1.exportedPlatforms = [] := by
  have hsv : scieJumpVersionOf app = some v := by
    simp [scieJumpVersionOf, h1, h2]
  have hpre : buildPrelude app useJump suffixFlag env.current
      = .error (.jumpVersionTooOld v) := by
    simp [buildPrelude, hsv, h3]
  unfold build
  rw [hpre]
  exact ⟨rfl, rfl, rfl, rfl, rfl⟩

/-- Witness for C4: a build with declared scie-jump version 0.8.0 aborts
untouched. -/
theorem claim4_witness :
    (build
        ⟨["home"], fun s => [s], fun _ => 0, fun _ _ _ => none,
          fun _ => ⟨"ptex", "ptex", true, none, .unset⟩, fun _ => [],
          fun _ => [], "0.1.0", "\n", ⟨"linux-x86_64"⟩, fun _ n => n,
          fun p n => n ++ "-" ++ p.value, fun _ _ _ => some [7],
          fun _ _ => ["jump"], fun r => r ++ ["bin"]⟩
        ⟨"app", "", [⟨"linux-x86_64"⟩], [], [], [], [],
          some ⟨some ⟨0, 8, 0⟩⟩, none, false, []⟩
        [] ["dest"] none false [] false ["tmp"] ⟨[], [], []⟩).2
      = some (.jumpVersionTooOld ⟨0, 8, 0⟩) ∧
    (build
        ⟨["home"], fun s => [s], fun _ => 0, fun _ _ _ => none,
          fun _ => ⟨"ptex", "ptex", true, none, .unset⟩, fun _ => [],
          fun _ => [], "0.1.0", "\n", ⟨"linux-x86_64"⟩, fun _ n => n,
          fun p n => n ++ "-" ++ p.value, fun _ _ _ => some [7],
          fun _ _ => ["jump"], fun r => r ++ ["bin"]⟩
        ⟨"app", "", [⟨"linux-x86_64"⟩], [], [], [], [],
          some ⟨some ⟨0, 8, 0⟩⟩, none, false, []⟩
        [] ["dest"] none false [] false ["tmp"] ⟨[], [], []⟩).1.packerCalls
      = [] := by
  have h := claim4_low_jump_version_aborts
    ⟨["home"], fun s => [s], fun _ => 0, fun _ _ _ => none,
      fun _ => ⟨"ptex", "ptex", true, none, .unset⟩, fun _ => [],
      fun _ => [], "0.1.0", "\n", ⟨"linux-x86_64"⟩, fun _ n => n,
      fun p n => n ++ "-" ++ p.value, fun _ _ _ => some [7],
      fun _ _ => ["jump"], fun r => r ++ ["bin"]⟩
    ⟨"app", "", [⟨"linux-x86_64"⟩], [], [], [], [],
      some ⟨some ⟨0, 8, 0⟩⟩, none, false, []⟩
    [] ["dest"] none false [] false ["tmp"] ⟨[], [], []⟩
    ⟨some ⟨0, 8, 0⟩⟩ ⟨0, 8, 0⟩ rfl rfl (by decide)
  exact ⟨h.1, h.2.2.1⟩

theorem linkLocal_dirs_sub (env : Env) (chroot : Path) (st : ExpSt)
    (file : File) (p : Path) (st' : ExpSt)
    (h : linkLocal env chroot st file p = .ok st') :
    ∀ dq ∈ st.fs.dirs, dq ∈ st'.fs.dirs := by
  unfold linkLocal at h
  cases hd : maybeCheckDigest env st.fs file p with
  | error e => rw [hd] at h; cases h
  | ok u =>
    rw [hd] at h
    by_cases hex : pathExists
        (mkdirAll st.fs (chroot ++ nameParts file.name).dropLast)
        (chroot ++ nameParts file.name)
    · rw [placeLink_skips st.fs (chroot ++ nameParts file.name) p hex] at h
      injection h with h
      rw [← h]
      intro dq hq
      exact List.mem_append_right _ hq
    · rw [placeLink_adds st.fs (chroot ++ nameParts file.name) p hex] at h
      injection h with h
      rw [← h]
      intro dq hq
      exact List.mem_append_right _ hq

theorem processFile_dirs_sub (env : Env) (dict : List (String × Path))
    (chroot : Path) (st : ExpSt) (f : File) (st' : ExpSt)
    (h : processFile env dict chroot st f = .ok st') :
    ∀ dq ∈ st.fs.dirs, dq ∈ st'.fs.dirs := by
  rcases hsrc : f.source with _ | ⟨u, lz⟩
  · by_cases hex : pathExists st.fs (resolveUnsetPath env dict f)
    · rw [processFile_unset env dict chroot st f hsrc, if_pos hex] at h
      exact linkLocal_dirs_sub env chroot st f _ st' h
    · rw [processFile_unset env dict chroot st f hsrc, if_neg hex] at h
      cases h
  · cases lz with
    | true =>
      rw [processFile_lazy env dict chroot st f u hsrc] at h
      injection h with h
      rw [← h]
      exact fun dq hq => hq
    | false =>
      cases hfetch : env.fetch u f.digest f.isExecutable with
      | none =>
        rw [processFile_eager_none env dict chroot st f u hsrc hfetch] at h
        cases h
      | some pc =>
        rw [processFile_eager_some env dict chroot st f u pc.1 pc.2 hsrc
          (by rw [hfetch])] at h
        exact linkLocal_dirs_sub env chroot
          ⟨addContent st.fs pc.1 pc.2, st.fetchUrls⟩ f pc.1 st' h

theorem procAll_dirs_sub (env : Env) (dict : List (String × Path))
    (chroot : Path) (files : List File) (st st' : ExpSt)
    (h : procAll env dict chroot files st = .ok st') :
    ∀ dq ∈ st.fs.dirs, dq ∈ st'.fs.dirs := by
  induction files generalizing st with
  | nil =>
    unfold procAll at h
    injection h with h
    rw [← h]
    exact fun dq hq => hq
  | cons f rest ih =>
    unfold procAll at h
    cases hp : processFile env dict chroot st f with
    | error e => rw [hp] at h; cases h
    | ok st1 =>
      rw [hp] at h
      intro dq hq
      exact ih st1 h dq (processFile_dirs_sub env dict chroot st f st1 hp dq hq)

theorem exportPlatform_ok_inv (env : Env) (app : Application)
    (mappings : List FileMapping) (destDir : Path) (force inc : Bool)
    (fs0 : FS) (platform : Platform) (fs' : FS) (mf : Manifest) (lp : Path)
    (h : exportPlatform env app mappings destDir force inc fs0 platform
        = .ok (fs', mf, lp)) :
    ∃ fs2 st,
      mkdirFresh (if force then rmtree fs0 (exportChroot destDir platform)
                  else fs0) (exportChroot destDir platform) = .ok fs2 ∧
      procAll env (exportDict env app mappings platform destDir)
          (exportChroot destDir platform) (workingFiles env app platform)
          ⟨exportInitFS env app platform destDir fs2, []⟩ = .ok st ∧
      mf = exportManifest env app platform inc st.fetchUrls ∧
      lp = exportChroot destDir platform ++ ["lift.json"] ∧
      fs' = addContent st.fs (exportChroot destDir platform ++ ["lift.json"])
              (env.serializeManifest mf) := by
  simp only [exportPlatform] at h
  cases hmk : mkdirFresh
      (if force then rmtree fs0 (exportChroot destDir platform) else fs0)
      (exportChroot destDir platform) with
  | error e => rw [hmk] at h; cases h
  | ok fs2 =>
    rw [hmk] at h
    dsimp only at h
    cases hpr : procAll env (exportDict env app mappings platform destDir)
        (exportChroot destDir platform) (workingFiles env app platform)
        ⟨exportInitFS env app platform destDir fs2, []⟩ with
    | error e => rw [hpr] at h; cases h
    | ok st =>
      rw [hpr] at h
      simp only [Except.ok.injEq, Prod.mk.injEq] at h
      obtain ⟨h1, h2, h3⟩ := h
      exact ⟨fs2, st, rfl, hpr, h2.symm, h3.symm, by rw [← h1, ← h2]⟩

theorem mkdirFresh_ok_mem (fs : FS) (p : Path) (fs2 : FS)
    (hne : p ≠ []) (h : mkdirFresh fs p = .ok fs2) : p ∈ fs2.dirs := by
  unfold mkdirFresh at h
  by_cases hex : pathExists fs p
  · rw [if_pos hex] at h
    cases h
  · rw [if_neg hex] at h
    injection h with h
    rw [← h]
    exact List.mem_append_left _ (self_mem_ancestorsOf hne)

theorem exportPlatform_creates_dir (env : Env) (app : Application)
    (mappings : List FileMapping) (destDir : Path) (force inc : Bool)
    (fs0 : FS) (platform : Platform) (fs' : FS) (mf : Manifest) (lp : Path)
    (h : exportPlatform env app mappings destDir force inc fs0 platform
        = .ok (fs', mf, lp)) :
    exportChroot destDir platform ∈ fs'.dirs := by
  obtain ⟨fs2, st, hmk, hpr, hmf, hlp, hfs⟩ :=
    exportPlatform_ok_inv env app mappings destDir force inc fs0 platform
      fs' mf lp h
  have hne : exportChroot destDir platform ≠ [] := by
    unfold exportChroot
    simp
  have h2 : exportChroot destDir platform ∈ fs2.dirs :=
    mkdirFresh_ok_mem _ _ fs2 hne hmk
  have h3 : exportChroot destDir platform
      ∈ (exportInitFS env app platform destDir fs2).dirs := by
    unfold exportInitFS
    by_cases hl : hasLazyFiles app platform
    · rw [if_pos hl]
      exact h2
    · rw [if_neg hl]
      exact h2
  have h4 := procAll_dirs_sub env _ _ _ _ st hpr _ h3
  rw [hfs]
  exact h4

/-- C2: re-running export into the same destination without `force` never
fails because of a pre-existing link: the guarded link-creation step is
total — it skips targets that already exist and links otherwise — and a
second run over an already-exported destination fails at directory
creation with a directory-exists error, not a link error. -/
theorem claim2_idempotent_link_creation (env : Env) (app : Application)
    (mappings : List FileMapping) (destDir : Path) (inc : Bool) (fs : FS)
    (platform : Platform) (fs' : FS) (mf : Manifest) (lp : Path)
    (h : exportPlatform env app mappings destDir false inc fs platform
        = .ok (fs', mf, lp)) :
    (exportPlatform env app mappings destDir false inc fs' platform
        = .error (.dirExists (destDir ++ [platform.value]))) ∧
    (∀ g t s, ∃ g', placeLink g t s = .ok g') ∧
    (∀ g t s, pathExists (mkdirAll g t.dropLast) t →
        placeLink g t s = .ok (mkdirAll g t.dropLast)) := by
  refine ⟨?_, placeLink_isOk, placeLink_skips⟩
  have hd := exportPlatform_creates_dir env app mappings destDir false inc
    fs platform fs' mf lp h
  have hex : pathExists fs' (destDir ++ [platform.value]) := Or.inl hd
  have hmk : mkdirFresh fs' (exportChroot destDir platform)
      = .error (.dirExists (destDir ++ [platform.value])) := by
    unfold mkdirFresh exportChroot
    rw [if_pos hex]
  simp only [exportPlatform, Bool.false_eq_true, if_false, hmk]

theorem buildStep_error_fields (env : Env) (app : Application)
    (mappings : List FileMapping) (destDir : Path) (useJump : Option Path)
    (inc : Bool) (algos : List HashAlgo) (useSuffix : Bool)
    (nativeJump tmpRoot : Path) (p : Platform) (acc : BuildOut)
    (st : BuildOut) (e : BuildError)
    (h : buildStep env app mappings destDir useJump inc algos useSuffix
        nativeJump tmpRoot p acc = .error (st, e)) :
    st.warnedRestriction = acc.warnedRestriction ∧
    st.binaries = acc.binaries := by
  unfold buildStep at h
  cases hexp : exportPlatform env app mappings tmpRoot false inc acc.fs p with
  | error e2 =>
    rw [hexp] at h
    injection h with h
    rw [Prod.mk.injEq] at h
    rw [← h.1]
    exact ⟨rfl, rfl⟩
  | ok res =>
    obtain ⟨fs1, mf1, lp1⟩ := res
    rw [hexp] at h
    dsimp only at h
    generalize hjp : (match useJump with
      | some r => env.customJump r
      | none => env.jump app.scieJump p) = jp at h
    cases hpk : env.runPacker nativeJump jp lp1 with
    | none =>
      rw [hpk] at h
      injection h with h
      rw [Prod.mk.injEq] at h
      rw [← h.1]
      exact ⟨rfl, rfl⟩
    | some binContent =>
      rw [hpk] at h
      cases h

theorem buildStep_ok_fields (env : Env) (app : Application)
    (mappings : List FileMapping) (destDir : Path) (useJump : Option Path)
    (inc : Bool) (algos : List HashAlgo) (useSuffix : Bool)
    (nativeJump tmpRoot : Path) (p : Platform) (acc acc' : BuildOut)
    (h : buildStep env app mappings destDir useJump inc algos useSuffix
        nativeJump tmpRoot p acc = .ok acc') :
    acc'.binaries = acc.binaries
        ++ [destDir ++ [if useSuffix then env.qualifiedBinaryName p app.name
                        else env.binaryName p app.name]] ∧
    acc'.exportedPlatforms = acc.exportedPlatforms ++ [p] ∧
    acc'.warnedRestriction = acc.warnedRestriction := by
  unfold buildStep at h
  cases hexp : exportPlatform env app mappings tmpRoot false inc acc.fs p with
  | error e =>
    rw [hexp] at h
    cases h
  | ok res =>
    obtain ⟨fs1, mf1, lp1⟩ := res
    rw [hexp] at h
    dsimp only at h
    generalize hjp : (match useJump with
      | some r => env.customJump r
      | none => env.jump app.scieJump p) = jp at h
    cases hpk : env.runPacker nativeJump jp lp1 with
    | none =>
      rw [hpk] at h
      cases h
    | some binContent =>
      rw [hpk] at h
      injection h with h
      rw [← h]
      exact ⟨rfl, rfl, rfl⟩

theorem buildLoop_warned (env : Env) (app : Application)
    (mappings : List FileMapping) (destDir : Path) (useJump : Option Path)
    (inc : Bool) (algos : List HashAlgo) (useSuffix : Bool)
    (nativeJump tmpRoot : Path) (ps : List Platform) (acc out : BuildOut)
    (err : Option BuildError)
    (h : buildLoop env app mappings destDir useJump inc algos useSuffix
        nativeJump tmpRoot ps acc = (out, err)) :
    acc.warnedRestriction = out.warnedRestriction := by
  induction ps generalizing acc with
  | nil =>
    unfold buildLoop at h
    rw [Prod.mk.injEq] at h
    rw [h.1]
  | cons p ps ih =>
    unfold buildLoop at h
    cases hst : buildStep env app mappings destDir useJump inc algos useSuffix
        nativeJump tmpRoot p acc with
    | error se =>
      obtain ⟨st, e⟩ := se
      rw [hst] at h
      dsimp only at h
      rw [Prod.mk.injEq] at h
      rw [← h.1]
      exact (buildStep_error_fields env app mappings destDir useJump inc algos
        useSuffix nativeJump tmpRoot p acc st e hst).1.symm
    | ok acc' =>
      rw [hst] at h
      dsimp only at h
      exact (buildStep_ok_fields env app mappings destDir useJump inc algos
        useSuffix nativeJump tmpRoot p acc acc' hst).2.2.symm.trans (ih _ h)

theorem buildLoop_single_ok (env : Env) (app : Application)
    (mappings : List FileMapping) (destDir : Path) (useJump : Option Path)
    (inc : Bool) (algos : List HashAlgo) (useSuffix : Bool)
    (nativeJump tmpRoot : Path) (p : Platform) (acc out : BuildOut)
    (h : buildLoop env app mappings destDir useJump inc algos useSuffix
        nativeJump tmpRoot [p] acc = (out, none)) :
    out.binaries = acc.binaries
        ++ [destDir ++ [if useSuffix then env.qualifiedBinaryName p app.name
                        else env.binaryName p app.name]] ∧
    out.exportedPlatforms = acc.exportedPlatforms ++ [p] := by
  unfold buildLoop at h
  cases hst : buildStep env app mappings destDir useJump inc algos useSuffix
      nativeJump tmpRoot p acc with
  | error se =>
    obtain ⟨st, e⟩ := se
    rw [hst] at h
    dsimp only at h
    rw [Prod.mk.injEq] at h
    cases h.2
  | ok acc' =>
    rw [hst] at h
    dsimp only at h
    unfold buildLoop at h
    rw [Prod.mk.injEq] at h
    rw [← h.1]
    exact ⟨(buildStep_ok_fields env app mappings destDir useJump inc algos
        useSuffix nativeJump tmpRoot p acc acc' hst).1,
      (buildStep_ok_fields env app mappings destDir useJump inc algos
        useSuffix nativeJump tmpRoot p acc acc' hst).2.1⟩

/-- C10: when a custom packer override restricts the build because the
application declares a platform set other than exactly the current
platform, the single produced binary is still written under the
platform-qualified name, never the bare name: the suffix decision is
computed from the originally declared platform set before the
restriction. -/
theorem claim10_qualified_name_after_restriction (env : Env)
    (app : Application) (mappings : List FileMapping) (destDir : Path)
    (useJumpPath : Path) (inc : Bool) (algos : List HashAlgo)
    (suffixFlag : Bool) (tmpRoot : Path) (fs : FS) (out : BuildOut)
    (hne : platformsEqCurrentOnly app.platforms env.current = false)
    (hok : build env app mappings destDir (some useJumpPath) inc algos
        suffixFlag tmpRoot fs = (out, none)) :
    out.binaries
        = [destDir ++ [env.qualifiedBinaryName env.current app.name]] ∧
    out.exportedPlatforms = [env.current] ∧
    out.warnedRestriction = true := by
  rcases hsv : scieJumpVersionOf app with _ | v
  · have hpre : buildPrelude app (some useJumpPath) suffixFlag env.current
        = .ok ([env.current], true, true) := by
      simp [buildPrelude, hne, hsv]
    simp only [build, hpre] at hok
    have hl := buildLoop_single_ok env app mappings destDir (some useJumpPath)
      inc algos true (env.customJump useJumpPath) tmpRoot env.current
      ⟨fs, [], [], true, []⟩ out hok
    refine ⟨?_, ?_, ?_⟩
    · rw [hl.1]
      simp
    · rw [hl.2]
      simp
    · have hw : out.warnedRestriction
          = (⟨fs, [], [], true, []⟩ : BuildOut).warnedRestriction := by
        exact (buildLoop_warned env app mappings destDir (some useJumpPath)
          inc algos true (env.customJump useJumpPath) tmpRoot [env.current]
          ⟨fs, [], [], true, []⟩ out none hok).symm
      rw [hw]
  · cases hlt : versionLt v floorVersion with
    | true =>
      have hpre : buildPrelude app (some useJumpPath) suffixFlag env.current
          = .error (.jumpVersionTooOld v) := by
        simp [buildPrelude, hsv, hlt]
      simp only [build, hpre] at hok
      rw [Prod.mk.injEq] at hok
      cases hok.2
    | false =>
      have hpre : buildPrelude app (some useJumpPath) suffixFlag env.current
          = .ok ([env.current], true, true) := by
        simp [buildPrelude, hne, hsv, hlt]
      simp only [build, hpre] at hok
      have hl := buildLoop_single_ok env app mappings destDir
        (some useJumpPath) inc algos true (env.customJump useJumpPath)
        tmpRoot env.current ⟨fs, [], [], true, []⟩ out hok
      refine ⟨?_, ?_, ?_⟩
      · rw [hl.1]
        simp
      · rw [hl.2]
        simp
      · have hw : out.warnedRestriction
            = (⟨fs, [], [], true, []⟩ : BuildOut).warnedRestriction := by
          exact (buildLoop_warned env app mappings destDir (some useJumpPath)
            inc algos true (env.customJump useJumpPath) tmpRoot [env.current]
            ⟨fs, [], [], true, []⟩ out none hok).symm
        rw [hw]

/-- Witness for C10: a single foreign declared platform with a custom
jump: the binary lands under the platform-qualified name of the current
platform. -/
theorem claim10_witness :
    (build sampleEnv
        ⟨"app", "demo", [⟨"macos-aarch64"⟩], [], [], [], [], none, none,
          false, []⟩
        [] ["out"] (some ["repo"]) false [] false ["tmp"]
        ⟨[], [], []⟩).1.binaries
      = [["out", "app-linux-x86_64"]] := by
  have h := claim10_qualified_name_after_restriction sampleEnv
    ⟨"app", "demo", [⟨"macos-aarch64"⟩], [], [], [], [], none, none,
      false, []⟩
    [] ["out"] ["repo"] false [] false ["tmp"] ⟨[], [], []⟩ _
    (by decide) rfl
  exact h.1

theorem lookupAssoc_insert_self {α : Type} (l : List (String × α))
    (k : String) (v : α) : lookupAssoc (insertAssoc l k v) k = some v := by
  induction l with
  | nil => simp [insertAssoc, lookupAssoc]
  | cons e es ih =>
    by_cases he : e.1 = k
    · simp [insertAssoc, he, lookupAssoc]
    · simp [insertAssoc, he, lookupAssoc, ih]

theorem lookupAssoc_insert_other {α : Type} (l : List (String × α))
    (k k' : String) (v : α) (h : k' ≠ k) :
    lookupAssoc (insertAssoc l k v) k' = lookupAssoc l k' := by
  induction l with
  | nil => simp [insertAssoc, lookupAssoc, Ne.symm h]
  | cons e es ih =>
    by_cases he : e.1 = k
    · simp [insertAssoc, he, lookupAssoc, Ne.symm h]
    · simp [insertAssoc, he, lookupAssoc, ih]

theorem procAll_append (env : Env) (dict : List (String × Path))
    (chroot : Path) (l1 l2 : List File) (st : ExpSt) :
    procAll env dict chroot (l1 ++ l2) st
      = (match procAll env dict chroot l1 st with
         | .error e => .error e
         | .ok st1 => procAll env dict chroot l2 st1) := by
  induction l1 generalizing st with
  | nil => rfl
  | cons f l1 ih =>
    rw [List.cons_append]
    have hl : procAll env dict chroot (f :: (l1 ++ l2)) st
        = (match processFile env dict chroot st f with
           | .error e => Except.error e
           | .ok st' => procAll env dict chroot (l1 ++ l2) st') := rfl
    have hr : procAll env dict chroot (f :: l1) st
        = (match processFile env dict chroot st f with
           | .error e => Except.error e
           | .ok st' => procAll env dict chroot l1 st') := rfl
    rw [hl, hr]
    cases hp : processFile env dict chroot st f with
    | error e => rfl
    | ok st1 => exact ih st1

theorem procAll_split (env : Env) (dict : List (String × Path))
    (chroot : Path) (l1 l2 : List File) (f : File) (st st' : ExpSt)
    (h : procAll env dict chroot (l1 ++ f :: l2) st = .ok st') :
    ∃ st1 st2, procAll env dict chroot l1 st = .ok st1 ∧
      processFile env dict chroot st1 f = .ok st2 ∧
      procAll env dict chroot l2 st2 = .ok st' := by
  rw [procAll_append] at h
  cases h1 : procAll env dict chroot l1 st with
  | error e => rw [h1] at h; cases h
  | ok st1 =>
    rw [h1] at h
    dsimp only at h
    unfold procAll at h
    cases h2 : processFile env dict chroot st1 f with
    | error e => rw [h2] at h; cases h
    | ok st2 =>
      rw [h2] at h
      exact ⟨st1, st2, rfl, h2, h⟩

theorem pathExists_addLink {fs : FS} {t s q : Path} :
    pathExists ⟨fs.dirs, fs.fileContents, (t, s) :: fs.links⟩ q
      ↔ q = t ∨ pathExists fs q := by
  unfold pathExists
  simp only [List.mem_cons]
  constructor
  · rintro (hd | ⟨e, he, rfl⟩ | ⟨e, (rfl | he), rfl⟩)
    · exact Or.inr (Or.inl hd)
    · exact Or.inr (Or.inr (Or.inl ⟨e, he, rfl⟩))
    · exact Or.inl rfl
    · exact Or.inr (Or.inr (Or.inr ⟨e, he, rfl⟩))
  · rintro (rfl | hd | ⟨e, he, rfl⟩ | ⟨e, he, rfl⟩)
    · exact Or.inr (Or.inr ⟨(q, s), Or.inl rfl, rfl⟩)
    · exact Or.inl hd
    · exact Or.inr (Or.inl ⟨e, he, rfl⟩)
    · exact Or.inr (Or.inr ⟨e, Or.inr he, rfl⟩)

theorem linkLocal_ok_shape (env : Env) (chroot : Path) (st : ExpSt)
    (file : File) (p : Path) (st' : ExpSt)
    (h : linkLocal env chroot st file p = .ok st') :
    st'.fetchUrls = st.fetchUrls ∧
    (∀ e ∈ st'.fs.links,
        e ∈ st.fs.links ∨ e.1 = chroot ++ nameParts file.name) ∧
    (∀ e ∈ st.fs.links, e ∈ st'.fs.links) := by
  unfold linkLocal at h
  cases hd : maybeCheckDigest env st.fs file p with
  | error e => rw [hd] at h; cases h
  | ok u =>
    rw [hd] at h
    by_cases hex : pathExists
        (mkdirAll st.fs (chroot ++ nameParts file.name).dropLast)
        (chroot ++ nameParts file.name)
    · rw [placeLink_skips st.fs (chroot ++ nameParts file.name) p hex] at h
      injection h with h
      rw [← h]
      exact ⟨rfl, fun e he => Or.inl he, fun e he => he⟩
    · rw [placeLink_adds st.fs (chroot ++ nameParts file.name) p hex] at h
      injection h with h
      rw [← h]
      refine ⟨rfl, ?_, fun e he => List.mem_cons_of_mem _ he⟩
      intro e he
      rcases List.mem_cons.mp he with rfl | he2
      · exact Or.inr rfl
      · exact Or.inl he2

theorem processFile_ok_shape (env : Env) (dict : List (String × Path))
    (chroot : Path) (st : ExpSt) (f : File) (st' : ExpSt)
    (h : processFile env dict chroot st f = .ok st') :
    (∀ k, (isLazyFile f = true → f.name ≠ k) →
        lookupAssoc st'.fetchUrls k = lookupAssoc st.fetchUrls k) ∧
    (∀ e ∈ st'.fs.links, e ∈ st.fs.links ∨
        (isLazyFile f = false ∧ e.1 = chroot ++ nameParts f.name)) ∧
    (∀ e ∈ st.fs.links, e ∈ st'.fs.links) := by
  rcases hsrc : f.source with _ | ⟨u, lz⟩
  · have hnl : isLazyFile f = false := by
      unfold isLazyFile
      rw [hsrc]
    by_cases hex : pathExists st.fs (resolveUnsetPath env dict f)
    · rw [processFile_unset env dict chroot st f hsrc, if_pos hex] at h
      obtain ⟨hfu, hlk, hmono⟩ := linkLocal_ok_shape env chroot st f _ st' h
      exact ⟨fun k _ => by rw [hfu],
        fun e he => (hlk e he).imp id (fun hx => ⟨hnl, hx⟩), hmono⟩
    · rw [processFile_unset env dict chroot st f hsrc, if_neg hex] at h
      cases h
  · cases lz with
    | true =>
      have hl : isLazyFile f = true := by
        unfold isLazyFile
        rw [hsrc]
      rw [processFile_lazy env dict chroot st f u hsrc] at h
      injection h with h
      rw [← h]
      refine ⟨?_, fun e he => Or.inl he, fun e he => he⟩
      intro k hk
      exact lookupAssoc_insert_other st.fetchUrls f.name k u (Ne.symm (hk hl))
    | false =>
      have hnl : isLazyFile f = false := by
        unfold isLazyFile
        rw [hsrc]
      cases hfetch : env.fetch u f.digest f.isExecutable with
      | none =>
        rw [processFile_eager_none env dict chroot st f u hsrc hfetch] at h
        cases h
      | some pc =>
        rw [processFile_eager_some env dict chroot st f u pc.1 pc.2 hsrc
          (by rw [hfetch])] at h
        obtain ⟨hfu, hlk, hmono⟩ := linkLocal_ok_shape env chroot
          ⟨addContent st.fs pc.1 pc.2, st.fetchUrls⟩ f pc.1 st' h
        exact ⟨fun k _ => by rw [hfu],
          fun e he => (hlk e he).imp id (fun hx => ⟨hnl, hx⟩), hmono⟩

theorem procAll_ok_shape (env : Env) (dict : List (String × Path))
    (chroot : Path) (files : List File) (st st' : ExpSt)
    (h : procAll env dict chroot files st = .ok st') :
    (∀ k, (∀ f ∈ files, isLazyFile f = true → f.name ≠ k) →
        lookupAssoc st'.fetchUrls k = lookupAssoc st.fetchUrls k) ∧
    (∀ e ∈ st'.fs.links, e ∈ st.fs.links ∨
        ∃ f ∈ files, isLazyFile f = false
          ∧ e.1 = chroot ++ nameParts f.name) ∧
    (∀ e ∈ st.fs.links, e ∈ st'.fs.links) := by
  induction files generalizing st with
  | nil =>
    unfold procAll at h
    injection h with h
    rw [← h]
    exact ⟨fun k _ => rfl, fun e he => Or.inl he, fun e he => he⟩
  | cons f rest ih =>
    unfold procAll at h
    cases hp : processFile env dict chroot st f with
    | error e => rw [hp] at h; cases h
    | ok st1 =>
      rw [hp] at h
      obtain ⟨hfu1, hlk1, hmono1⟩ :=
        processFile_ok_shape env dict chroot st f st1 hp
      obtain ⟨hfu2, hlk2, hmono2⟩ := ih st1 h
      refine ⟨?_, ?_, ?_⟩
      · intro k hk
        rw [hfu2 k (fun g hg => hk g (List.mem_cons_of_mem _ hg)),
          hfu1 k (hk f (List.mem_cons_self _ _))]
      · intro e he
        rcases hlk2 e he with he1 | ⟨g, hg, hgl, hge⟩
        · rcases hlk1 e he1 with he0 | ⟨hnl, hx⟩
          · exact Or.inl he0
          · exact Or.inr ⟨f, List.mem_cons_self _ _, hnl, hx⟩
        · exact Or.inr ⟨g, List.mem_cons_of_mem _ hg, hgl, hge⟩
      · intro e he
        exact hmono2 e (hmono1 e he)

theorem pathUnder_append (r s : Path) : pathUnder r (r ++ s) = true := by
  unfold pathUnder
  rw [List.take_left]
  simp

theorem append_singleton_not_mem_ancestors (chroot : Path) (x : String) :
    chroot ++ [x] ∉ ancestorsOf chroot := by
  intro hmem
  have := mem_ancestorsOf_length hmem
  simp [List.length_append] at this

theorem mkdirFresh_ok_shape (fs : FS) (p : Path) (fs2 : FS)
    (h : mkdirFresh fs p = .ok fs2) : fs2 = mkdirAll fs p := by
  unfold mkdirFresh at h
  by_cases hex : pathExists fs p
  · rw [if_pos hex] at h
    cases h
  · rw [if_neg hex] at h
    injection h with h
    exact h.symm

theorem placeLink_no_entry (fs : FS) (chroot : Path) (nm x : String)
    (src : Path) (fs' : FS)
    (hp : placeLink fs (chroot ++ [nm]) src = .ok fs')
    (hname : nm ≠ x)
    (hnx : ¬ pathExists fs (chroot ++ [x])) :
    ¬ pathExists fs' (chroot ++ [x]) := by
  have hdl : (chroot ++ [nm]).dropLast = chroot := List.dropLast_concat
  have hmk : ¬ pathExists (mkdirAll fs (chroot ++ [nm]).dropLast)
      (chroot ++ [x]) := by
    rw [hdl]
    intro hq
    rcases pathExists_mkdirAll.mp hq with hanc | hfs2
    · exact append_singleton_not_mem_ancestors chroot x hanc
    · exact hnx hfs2
  by_cases hex : pathExists (mkdirAll fs (chroot ++ [nm]).dropLast)
      (chroot ++ [nm])
  · rw [placeLink_skips _ _ _ hex] at hp
    injection hp with hp
    rw [← hp]
    exact hmk
  · rw [placeLink_adds _ _ _ hex] at hp
    injection hp with hp
    rw [← hp]
    intro hq
    rcases pathExists_addLink.mp hq with heq | hq2
    · have : [x] = [nm] := List.append_cancel_left heq
      injection this with hx
      exact hname hx.symm
    · exact hmk hq2

theorem linkLocal_no_entry (env : Env) (chroot : Path) (st : ExpSt)
    (file : File) (p : Path) (st' : ExpSt) (x : String)
    (h : linkLocal env chroot st file p = .ok st')
    (hsingle : nameParts file.name = [file.name])
    (hname : file.name ≠ x)
    (hnx : ¬ pathExists st.fs (chroot ++ [x])) :
    ¬ pathExists st'.fs (chroot ++ [x]) := by
  unfold linkLocal at h
  cases hd : maybeCheckDigest env st.fs file p with
  | error e => rw [hd] at h; cases h
  | ok u =>
    rw [hd] at h
    cases hp2 : placeLink st.fs (chroot ++ nameParts file.name) p with
    | error e => rw [hp2] at h; cases h
    | ok g =>
      rw [hp2] at h
      injection h with h
      rw [← h]
      rw [hsingle] at hp2
      exact placeLink_no_entry st.fs chroot file.name x p g hp2 hname hnx

theorem processFile_no_entry (env : Env) (dict : List (String × Path))
    (chroot : Path) (st : ExpSt) (f : File) (st' : ExpSt) (x : String)
    (h : processFile env dict chroot st f = .ok st')
    (hsingle : nameParts f.name = [f.name])
    (hname : f.name ≠ x)
    (hfetch : ∀ u d e p c, env.fetch u d e = some (p, c) →
        pathUnder chroot p = false)
    (hnx : ¬ pathExists st.fs (chroot ++ [x])) :
    ¬ pathExists st'.fs (chroot ++ [x]) := by
  rcases hsrc : f.source with _ | ⟨u, lz⟩
  · by_cases hex : pathExists st.fs (resolveUnsetPath env dict f)
    · rw [processFile_unset env dict chroot st f hsrc, if_pos hex] at h
      exact linkLocal_no_entry env chroot st f _ st' x h hsingle hname hnx
    · rw [processFile_unset env dict chroot st f hsrc, if_neg hex] at h
      cases h
  · cases lz with
    | true =>
      rw [processFile_lazy env dict chroot st f u hsrc] at h
      injection h with h
      rw [← h]
      exact hnx
    | false =>
      cases hfetch2 : env.fetch u f.digest f.isExecutable with
      | none =>
        rw [processFile_eager_none env dict chroot st f u hsrc hfetch2] at h
        cases h
      | some pc =>
        rw [processFile_eager_some env dict chroot st f u pc.1 pc.2 hsrc
          (by rw [hfetch2])] at h
        have hpq : ¬ pathExists (addContent st.fs pc.1 pc.2)
            (chroot ++ [x]) := by
          intro hq
          rcases pathExists_addContent.mp hq with heq | hq2
          · have h1 := hfetch u f.digest f.isExecutable pc.1 pc.2
              (by rw [hfetch2])
            rw [← heq, pathUnder_append] at h1
            cases h1
          · exact hnx hq2
        exact linkLocal_no_entry env chroot
          ⟨addContent st.fs pc.1 pc.2, st.fetchUrls⟩ f pc.1 st' x h hsingle
          hname hpq

theorem procAll_no_entry (env : Env) (dict : List (String × Path))
    (chroot : Path) (files : List File) (st st' : ExpSt) (x : String)
    (h : procAll env dict chroot files st = .ok st')
    (hsingle : ∀ f ∈ files, nameParts f.name = [f.name])
    (hname : ∀ f ∈ files, f.name ≠ x)
    (hfetch : ∀ u d e p c, env.fetch u d e = some (p, c) →
        pathUnder chroot p = false)
    (hnx : ¬ pathExists st.fs (chroot ++ [x])) :
    ¬ pathExists st'.fs (chroot ++ [x]) := by
  induction files generalizing st with
  | nil =>
    unfold procAll at h
    injection h with h
    rw [← h]
    exact hnx
  | cons f rest ih =>
    unfold procAll at h
    cases hp : processFile env dict chroot st f with
    | error e => rw [hp] at h; cases h
    | ok st1 =>
      rw [hp] at h
      exact ih st1 h
        (fun g hg => hsingle g (List.mem_cons_of_mem _ hg))
        (fun g hg => hname g (List.mem_cons_of_mem _ hg))
        (processFile_no_entry env dict chroot st f st1 x hp
          (hsingle f (List.mem_cons_self _ _))
          (hname f (List.mem_cons_self _ _)) hfetch hnx)

theorem processFile_unset_links (env : Env) (dict : List (String × Path))
    (chroot : Path) (st : ExpSt) (f : File) (st' : ExpSt) (pa : Path)
    (h : processFile env dict chroot st f = .ok st')
    (hsrc : f.source = .unset)
    (hres : resolveUnsetPath env dict f = pa)
    (hsingle : nameParts f.name = [f.name])
    (hnx : ¬ pathExists st.fs (chroot ++ [f.name])) :
    (chroot ++ [f.name], pa) ∈ st'.fs.links := by
  rw [processFile_unset env dict chroot st f hsrc] at h
  by_cases hex : pathExists st.fs (resolveUnsetPath env dict f)
  · rw [if_pos hex] at h
    unfold linkLocal at h
    cases hd : maybeCheckDigest env st.fs f (resolveUnsetPath env dict f) with
    | error e => rw [hd] at h; cases h
    | ok u =>
      rw [hd] at h
      have hguard : ¬ pathExists
          (mkdirAll st.fs (chroot ++ nameParts f.name).dropLast)
          (chroot ++ nameParts f.name) := by
        rw [hsingle]
        rw [List.dropLast_concat]
        intro hq
        rcases pathExists_mkdirAll.mp hq with hanc | hfs2
        · exact append_singleton_not_mem_ancestors chroot f.name hanc
        · exact hnx hfs2
      rw [placeLink_adds _ _ _ hguard] at h
      injection h with h
      rw [← h]
      show (chroot ++ [f.name], pa)
        ∈ (chroot ++ nameParts f.name, resolveUnsetPath env dict f)
            :: (mkdirAll st.fs (chroot ++ nameParts f.name).dropLast).links
      rw [hsingle, hres]
      exact List.mem_cons_self _ _
  · rw [if_neg hex] at h
    cases h

/-- C1: for an application containing a file `a` with unset source mapped
to a local path and a file `b` declared as a lazy fetch from `url`, a
successful per-platform export records `b` in the manifest's fetch-URL
table keyed by its name and never links it into the staging directory,
while `a` is linked inside the staging directory and is absent from the
fetch-URL table. -/
theorem claim1_lazy_fetch_vs_local_links (env : Env) (app : Application)
    (mappings : List FileMapping) (destDir : Path) (force inc : Bool)
    (fs : FS) (platform : Platform) (fs' : FS) (mf : Manifest) (lp : Path)
    (a b : File) (url : String) (pa : Path)
    (ha : a ∈ app.files) (hasrc : a.source = .unset)
    (hb : b ∈ app.files) (hbsrc : b.source = .fetch url true)
    (hmap : lookupAssoc (mappingDict env mappings) a.id = some pa)
    (hidp : a.id ≠ (env.ptexFile platform).id)
    (hnames : ((workingFiles env app platform).map File.name).Nodup)
    (hsingle : ∀ f ∈ workingFiles env app platform,
        nameParts f.name = [f.name])
    (hclean : ∀ q, pathUnder (exportChroot destDir platform) q = true →
        ¬ pathExists fs q)
    (hfetch : ∀ u d e p c, env.fetch u d e = some (p, c) →
        pathUnder (exportChroot destDir platform) p = false)
    (hok : exportPlatform env app mappings destDir force inc fs platform
        = .ok (fs', mf, lp)) :
    lookupAssoc mf.fetchUrls b.name = some url ∧
    lookupAssoc mf.fetchUrls a.name = none ∧
    (exportChroot destDir platform ++ [a.name], pa) ∈ fs'.links ∧
    (∀ t, (exportChroot destDir platform ++ [b.name], t) ∉ fs'.links) := by
  obtain ⟨fs2, st, hmk, hpr, hmf, hlp, hfs⟩ :=
    exportPlatform_ok_inv env app mappings destDir force inc fs platform
      fs' mf lp hok
  have hbl : isLazyFile b = true := by
    unfold isLazyFile
    rw [hbsrc]
  have hal : isLazyFile a = false := by
    unfold isLazyFile
    rw [hasrc]
  have haBase : a ∈ baseFiles app platform := List.mem_append_right _ ha
  have hbBase : b ∈ baseFiles app platform := List.mem_append_right _ hb
  have hlazy : hasLazyFiles app platform = true := by
    unfold hasLazyFiles
    rw [List.any_eq_true]
    exact ⟨b, hbBase, hbl⟩
  have hWdef : workingFiles env app platform
      = baseFiles app platform ++ [env.ptexFile platform] := by
    simp [workingFiles, hlazy]
  have haW : a ∈ workingFiles env app platform := by
    rw [hWdef]
    exact List.mem_append_left _ haBase
  have hbW : b ∈ workingFiles env app platform := by
    rw [hWdef]
    exact List.mem_append_left _ hbBase
  have hptexW : env.ptexFile platform ∈ workingFiles env app platform := by
    rw [hWdef]
    exact List.mem_append_right _ (List.mem_cons_self _ _)
  have hinj : ∀ x ∈ workingFiles env app platform,
      ∀ y ∈ workingFiles env app platform, x.name = y.name → x = y :=
    fun x hx y hy hxy => List.inj_on_of_nodup_map hnames hx hy hxy
  have hfs2shape := mkdirFresh_ok_shape _ _ _ hmk
  -- nothing under the chroot exists in the pre-loop filesystem, except the
  -- staged ptex helper
  have hfs1ne : ∀ x : String,
      ¬ pathExists (if force then rmtree fs (exportChroot destDir platform)
                    else fs) (exportChroot destDir platform ++ [x]) := by
    intro x hq
    have hfsx : pathExists fs (exportChroot destDir platform ++ [x]) := by
      cases force with
      | false => simpa using hq
      | true => exact (pathExists_rmtree (by simpa using hq)).1
    exact hclean _ (pathUnder_append _ _) hfsx
  have hfs2ne : ∀ x : String,
      ¬ pathExists fs2 (exportChroot destDir platform ++ [x]) := by
    intro x hq
    rw [hfs2shape] at hq
    rcases pathExists_mkdirAll.mp hq with hanc | hq2
    · exact append_singleton_not_mem_ancestors _ x hanc
    · exact hfs1ne x hq2
  have hInitNoEntry : ∀ x : String, x ≠ (env.ptexFile platform).name →
      ¬ pathExists (exportInitFS env app platform destDir fs2)
          (exportChroot destDir platform ++ [x]) := by
    intro x hxp hq
    rw [exportInitFS, if_pos hlazy] at hq
    rcases pathExists_addContent.mp hq with heq | hq2
    · rw [hsingle _ hptexW] at heq
      have : [x] = [(env.ptexFile platform).name] :=
        List.append_cancel_left heq
      injection this with hx
      exact hxp hx
    · exact hfs2ne x hq2
  have hInitLinks : ∀ e ∈ (exportInitFS env app platform destDir fs2).links,
      e ∈ fs.links := by
    intro e he
    rw [exportInitFS, if_pos hlazy] at he
    have he2 : e ∈ fs2.links := he
    rw [hfs2shape] at he2
    have he3 : e ∈ (if force then rmtree fs (exportChroot destDir platform)
        else fs).links := he2
    cases force with
    | false => simpa using he3
    | true =>
      simp only [if_true] at he3
      exact (List.mem_filter.mp he3).1
  refine ⟨?_, ?_, ?_, ?_⟩
  · -- b appears in the fetch table under its name
    obtain ⟨preB, postB, hsplitB⟩ := List.append_of_mem hbW
    have hprB := hpr
    rw [hsplitB] at hprB
    obtain ⟨st1, st2, hpr1, hb2, hpr2⟩ := procAll_split _ _ _ _ _ _ _ _ hprB
    rw [processFile_lazy env _ _ st1 b url hbsrc] at hb2
    injection hb2 with hb2
    have hlook2 : lookupAssoc st2.fetchUrls b.name = some url := by
      rw [← hb2]
      exact lookupAssoc_insert_self _ _ _
    have hnodupB := hnames
    rw [hsplitB, List.map_append, List.map_cons] at hnodupB
    have hcons := (List.nodup_append.mp hnodupB).2.1
    rw [List.nodup_cons] at hcons
    have hkpost : ∀ f ∈ postB, isLazyFile f = true → f.name ≠ b.name := by
      intro f hf _ hfn
      exact hcons.1 (hfn ▸ List.mem_map_of_mem File.name hf)
    have hlookf : lookupAssoc st.fetchUrls b.name = some url := by
      rw [(procAll_ok_shape _ _ _ _ _ _ hpr2).1 b.name hkpost]
      exact hlook2
    rw [hmf]
    exact hlookf
  · -- a is absent from the fetch table
    have hkall : ∀ f ∈ workingFiles env app platform,
        isLazyFile f = true → f.name ≠ a.name := by
      intro f hf hfl hfn
      have hfa := hinj f hf a haW hfn
      rw [hfa, hal] at hfl
      cases hfl
    have h2 := (procAll_ok_shape _ _ _ _ _ _ hpr).1 a.name hkall
    rw [hmf]
    exact h2
  · -- a is linked at <chroot>/<a.name> pointing at its mapped path
    obtain ⟨preA, postA, hsplitA⟩ := List.append_of_mem haW
    have hprA := hpr
    rw [hsplitA] at hprA
    obtain ⟨sA1, sA2, hA1, hA2, hA3⟩ := procAll_split _ _ _ _ _ _ _ _ hprA
    have hnodupA := hnames
    rw [hsplitA, List.map_append, List.map_cons] at hnodupA
    have hdisjA := List.disjoint_of_nodup_append hnodupA
    have hnamesPre : ∀ f ∈ preA, f.name ≠ a.name := by
      intro f hf hfn
      exact hdisjA (List.mem_map_of_mem File.name hf)
        (hfn ▸ List.mem_cons_self _ _)
    have hap : a.name ≠ (env.ptexFile platform).name := by
      intro he
      have hnodupW := hnames
      rw [hWdef, List.map_append] at hnodupW
      have hdisjW := List.disjoint_of_nodup_append hnodupW
      exact hdisjW (List.mem_map_of_mem File.name haBase)
        (by rw [he]; simp)
    have hnx0 : ¬ pathExists (exportInitFS env app platform destDir fs2)
        (exportChroot destDir platform ++ [a.name]) :=
      hInitNoEntry a.name hap
    have hsinglesPre : ∀ f ∈ preA, nameParts f.name = [f.name] := by
      intro f hf
      exact hsingle f (by rw [hsplitA]; exact List.mem_append_left _ hf)
    have hnx1 := procAll_no_entry _ _ _ preA _ sA1 a.name hA1 hsinglesPre
      hnamesPre hfetch hnx0
    have hdict : lookupAssoc (exportDict env app mappings platform destDir)
        a.id = some pa := by
      rw [exportDict, if_pos hlazy]
      rw [lookupAssoc_insert_other _ _ _ _ hidp]
      exact hmap
    have hres : resolveUnsetPath env
        (exportDict env app mappings platform destDir) a = pa := by
      unfold resolveUnsetPath
      rw [hdict]
      rfl
    have hlink := processFile_unset_links env _ _ sA1 a sA2 pa hA2 hasrc
      hres (hsingle a haW) hnx1
    have hmono := (procAll_ok_shape _ _ _ postA sA2 st hA3).2.2
    have hfinal := hmono _ hlink
    rw [hfs]
    exact hfinal
  · -- b is never linked into the staging directory
    intro t hmem
    rw [hfs] at hmem
    have hmem2 : (exportChroot destDir platform ++ [b.name], t)
        ∈ st.fs.links := hmem
    rcases (procAll_ok_shape _ _ _ _ _ _ hpr).2.1 _ hmem2 with h0 | hEx
    · have : pathExists fs (exportChroot destDir platform ++ [b.name]) :=
        Or.inr (Or.inr ⟨_, hInitLinks _ h0, rfl⟩)
      exact hclean _ (pathUnder_append _ _) this
    · obtain ⟨g, hg, hgl, hge⟩ := hEx
      rw [hsingle g hg] at hge
      have hgn : b.name = g.name := by
        have := List.append_cancel_left hge
        injection this
      have hgb := hinj g hg b hbW hgn.symm
      rw [hgb, hbl] at hgl
      cases hgl

/-- Witness for C1: the lazy file lands in the fetch table only, the
mapped file is linked into the staging directory only. -/
theorem claim1_witness :
    lookupAssoc c1Out.2.1.fetchUrls "b.bin" = some "https://u" ∧
    lookupAssoc c1Out.2.1.fetchUrls "a.bin" = none ∧
    (["d", "linux-x86_64", "a.bin"], ["pa"]) ∈ c1Out.1.links ∧
    (["d", "linux-x86_64", "b.bin"], ["pa"]) ∉ c1Out.1.links := by
  have h := claim1_lazy_fetch_vs_local_links sampleEnv c1App
    [⟨"a", "pa"⟩] ["d"] false false c1FS0 ⟨"linux-x86_64"⟩
    c1Out.1 c1Out.2.1 c1Out.2.2
    ⟨"a", "a.bin", false, none, .unset⟩
    ⟨"b", "b.bin", false, none, .fetch "https://u" true⟩
    "https://u" ["pa"]
    (by decide) rfl (by decide) rfl rfl (by decide) (by decide) (by decide)
    (by
      intro q hq hex
      rcases hex with hd | ⟨e, he, h1⟩ | ⟨e, he, h1⟩
      · cases hd
      · have he2 := List.mem_singleton.mp he
        rw [he2] at h1
        rw [← h1] at hq
        exact absurd hq (by decide)
      · cases he)
    (by intro u d e p c hc; cases hc)
    rfl
  exact ⟨h.1, h.2.1, h.2.2.1, h.2.2.2 ["pa"]⟩

/-- Witness for C2: a concrete first export succeeds, and the second run
into the same destination fails with the directory-exists error. -/
theorem claim2_witness :
    exportPlatform sampleEnv sampleApp [] ["dest"] false false
        sampleFsAfterExport ⟨"linux-x86_64"⟩
      = .error (.dirExists ["dest", "linux-x86_64"]) := by
  have h := claim2_idempotent_link_creation sampleEnv sampleApp [] ["dest"]
    false ⟨[], [], []⟩ ⟨"linux-x86_64"⟩ _ _ _ rfl
  exact h.1

end Science
